import Mathlib

/-!
Verification development for the RelayPlane MCP server core: the workflow
engine (`relay-workflow-run.ts`), template interpolator, dependency-graph
resolver (both the execution-path and validation-path topological sorts),
budget tracker (`budget/tracker.ts`), cost estimator (`budget/estimator.ts`),
run store (`run-store.ts`) and single-call path (`relay-run.ts`).

Conventions of the shallow embedding:
* JavaScript numbers holding money are embedded as rationals; token and call
  counters as naturals; epoch-millisecond timestamps as integers.
* JavaScript `undefined` is `Option.none`; JavaScript `null` is an explicit
  `JsValue.null` (the two behave differently in the interpolator, as in JS).
* Functions that `throw` return an error value; the thrown message strings
  are embedded as tagged constructors carrying their parameters.
* Wall-clock reads (`Date.now()` durations), random run ids, trace URLs and
  the context-reduction observability string are elided from responses: no
  property below concerns them.  The current time is passed explicitly to
  every budget operation, mirroring the lazy window checks.
-/

namespace RelayPlane

/-- JSON-like runtime values flowing through the workflow engine: the
workflow `input` object, step outputs, and the interpolation context.
`null` is JavaScript `null`; absent properties are `Option.none` at use
sites. -/
inductive JsValue where
  | null : JsValue
  | str : String → JsValue
  | obj : List (String × JsValue) → JsValue

/-- Property access `value[part]`: on an object, the property's value (keys
are unique in the JS objects we model, so first match); on `null` or a
string, `undefined` (`none`), matching JS property access for the
identifier-shaped keys produced by template paths. -/
def JsValue.getField : JsValue → String → Option JsValue
  | .obj fields, k => (fields.find? (fun p => p.1 == k)).map (fun p => p.2)
  | _, _ => none

/-- Escape for the `JSON.stringify` model: backslash and double quote. -/
def jsonEscape (s : String) : String :=
  String.mk (s.data.flatMap (fun c => if c == '"' || c == '\\' then ['\\', c] else [c]))

mutual

/-- Model of `JSON.stringify` on the values we carry (used by the
interpolator when a resolved value is an object, and for `null`). -/
def JsValue.stringify : JsValue → String
  | .null => "null"
  | .str s => "\"" ++ jsonEscape s ++ "\""
  | .obj fields => "\x7b" ++ stringifyFields fields ++ "\x7d"

/-- Comma-separated `"key":value` items of an object body. -/
def stringifyFields : List (String × JsValue) → String
  | [] => ""
  | [p] => "\"" ++ jsonEscape p.1 ++ "\":" ++ p.2.stringify
  | p :: q :: rest =>
      "\"" ++ jsonEscape p.1 ++ "\":" ++ p.2.stringify ++ "," ++ stringifyFields (q :: rest)

end

/-- Rendering of the fully-walked value, from the tail of `interpolate`'s
replacement callback: `undefined` renders as the empty string
(`String(value ?? '')`), `null` renders as `JSON.stringify(null) = "null"`
(JS `typeof null === 'object'`), a string renders as itself, an object is
stringified. -/
def renderValue : Option JsValue → String
  | none => ""
  | some .null => JsValue.null.stringify
  | some (.str s) => s
  | some (.obj fields) => (JsValue.obj fields).stringify

/-- The path-walking loop of `interpolate` (relay-workflow-run.ts:68-81):
before consuming each remaining part, a `null`/`undefined` current value
short-circuits to the empty string; otherwise the next property is read.
When the parts are exhausted the value is rendered. -/
def resolveParts : Option JsValue → List String → String
  | v, [] => renderValue v
  | none, _ :: _ => ""
  | some .null, _ :: _ => ""
  | some v, p :: ps => resolveParts (v.getField p) ps

/-- Whitespace trim of `path.trim()` on both ends. -/
def trimChars (cs : List Char) : List Char :=
  ((cs.dropWhile Char.isWhitespace).reverse.dropWhile Char.isWhitespace).reverse

/-- `split(sep)` of JavaScript for a one-character separator: every
occurrence separates segments, adjacent separators produce empty segments,
and the empty string splits to one empty segment. -/
def splitCharGo (sep : Char) (acc : List Char) : List Char → List String
  | [] => [String.mk acc.reverse]
  | c :: rest =>
      if c = sep then String.mk acc.reverse :: splitCharGo sep [] rest
      else splitCharGo sep (c :: acc) rest

/-- `s.split(sep)` on the characters of `s`. -/
def splitChar (sep : Char) (cs : List Char) : List String :=
  splitCharGo sep [] cs

/-- `path.split('.')`. -/
def splitDot (cs : List Char) : List String :=
  splitChar '.' cs

/-- `model.split(':')`, used by the model-format checks and provider
extraction. -/
def splitColon (s : String) : List String :=
  splitChar ':' s.data

/-- One placeholder body: `path.trim().split('.')` walked from the context
root. -/
def resolvePath (ctx : JsValue) (path : List Char) : String :=
  resolveParts (some ctx) (splitDot (trimChars path))

/-- Attempt to match the regex remainder `([^}]+)\x7d\x7d` at the head of
`cs` (the two opening braces having been consumed): one or more non-brace
characters followed by two closing braces.  Returns the captured path and
the characters after the match. -/
def matchPlaceholder (cs : List Char) : Option (List Char × List Char) :=
  match cs.takeWhile (fun c => c != '\x7d'), cs.dropWhile (fun c => c != '\x7d') with
  | [], _ => none
  | c :: content, '\x7d' :: '\x7d' :: rest => some (c :: content, rest)
  | _, _ => none

/-- The scanner of `interpolate`'s
`template.replace(/\x7b\x7b([^\x7d]+)\x7d\x7d/g, ...)`: at each position, a
complete placeholder is replaced by its resolved path value; otherwise one
character is emitted and scanning resumes at the next position, as the
global regex does.  The `Nat` is structural fuel: each step consumes at
least one character, so the initial character count is always enough
(`matchPlaceholder_length`); the fuel-exhaustion branch is unreachable
from `interpolate`. -/
def interpChars (ctx : JsValue) : Nat → List Char → List Char
  | 0, cs => cs
  | _ + 1, [] => []
  | fuel + 1, '\x7b' :: '\x7b' :: rest =>
      match matchPlaceholder rest with
      | some (path, rest') => (resolvePath ctx path).data ++ interpChars ctx fuel rest'
      | none => '\x7b' :: interpChars ctx fuel ('\x7b' :: rest)
  | fuel + 1, c :: rest => c :: interpChars ctx fuel rest

/-- `interpolate(template, context)` (relay-workflow-run.ts:65-82). -/
def interpolate (template : String) (ctx : JsValue) : String :=
  String.mk (interpChars ctx template.data.length template.data)

/-- The execution context object `\x7b input, steps \x7d` the engine
interpolates against. -/
def mkContext (input : JsValue) (steps : List (String × JsValue)) : JsValue :=
  .obj [("input", input), ("steps", .obj steps)]

/-! ## Budget tracker (`src/budget/tracker.ts`) and configuration -/

/-- The configuration fields read by the core (`config.ts`): the three
budget ceilings and, standing for the `providers` record, the list of
provider names that have an API key configured (`isProviderConfigured`). -/
structure McpServerConfig where
  maxDailyCostUsd : ℚ
  maxSingleCallCostUsd : ℚ
  maxCallsPerHour : ℕ
  configuredProviders : List String

/-- A point in time as the tracker observes it: the UTC date string
`toISOString().split('T')[0]` and the epoch milliseconds `getTime()`. -/
structure Instant where
  dateUTC : String
  millis : ℤ

/-- Mutable tracker state (tracker.ts:11-16). -/
structure BudgetState where
  dailySpendUsd : ℚ
  hourlyCallCount : ℕ
  lastResetDate : String
  lastHourlyReset : ℤ

/-- `hourInMs` (tracker.ts:39). -/
def hourInMs : ℤ := 60 * 60 * 1000

/-- `shouldResetHourly` (tracker.ts:36-41). -/
def shouldResetHourly (now : Instant) (st : BudgetState) : Bool :=
  now.millis - st.lastHourlyReset ≥ hourInMs

/-- `maybeResetCounters` (tracker.ts:46-60): lazy daily reset when the UTC
date changed, then lazy hourly reset when an hour has passed since the
stored hourly marker. -/
def maybeResetCounters (now : Instant) (st : BudgetState) : BudgetState :=
  let st1 :=
    if st.lastResetDate ≠ now.dateUTC then
      { st with dailySpendUsd := 0, lastResetDate := now.dateUTC }
    else st
  if shouldResetHourly now st1 then
    { st1 with hourlyCallCount := 0, lastHourlyReset := now.millis }
  else st1

/-- The three denial messages of `checkBudget`, as tags. -/
inductive BudgetDenialReason where
  | hourlyLimit
  | dailyBudget
  | singleCallLimit
deriving Repr, DecidableEq

/-- `BudgetCheckResult` (tracker.ts:62-67); `reason` models the `error`
message field (`none` exactly when allowed). -/
structure BudgetCheckResult where
  allowed : Bool
  reason : Option BudgetDenialReason
  currentDailySpend : ℚ
  currentHourlyCalls : ℕ

/-- `checkBudget` (tracker.ts:72-117).  The global mutable state and clock
are explicit: the returned pair is (result, state after the lazy reset). -/
def checkBudget (cfg : McpServerConfig) (now : Instant) (estimatedCost : ℚ)
    (st : BudgetState) : BudgetCheckResult × BudgetState :=
  let st := maybeResetCounters now st
  if st.hourlyCallCount ≥ cfg.maxCallsPerHour then
    (⟨false, some .hourlyLimit, st.dailySpendUsd, st.hourlyCallCount⟩, st)
  else if st.dailySpendUsd + estimatedCost > cfg.maxDailyCostUsd then
    (⟨false, some .dailyBudget, st.dailySpendUsd, st.hourlyCallCount⟩, st)
  else if estimatedCost > cfg.maxSingleCallCostUsd then
    (⟨false, some .singleCallLimit, st.dailySpendUsd, st.hourlyCallCount⟩, st)
  else
    (⟨true, none, st.dailySpendUsd, st.hourlyCallCount⟩, st)

/-- `recordCost` (tracker.ts:122-126): the same lazy rollover check, then
add the actual cost to the daily spend and bump the hourly call counter. -/
def recordCost (now : Instant) (actualCost : ℚ) (st : BudgetState) : BudgetState :=
  let st := maybeResetCounters now st
  { st with
    dailySpendUsd := st.dailySpendUsd + actualCost
    hourlyCallCount := st.hourlyCallCount + 1 }

/-- A sequence of `recordCost` calls, oldest first. -/
def recordAll (calls : List (Instant × ℚ)) (st : BudgetState) : BudgetState :=
  calls.foldl (fun s c => recordCost c.1 c.2 s) st

/-- An instant that lies inside both of the state's current windows: same
UTC date as the last daily reset, and less than an hour past the last
hourly reset. -/
def InsideWindows (now : Instant) (st : BudgetState) : Prop :=
  now.dateUTC = st.lastResetDate ∧ now.millis - st.lastHourlyReset < hourInMs

instance (now : Instant) (st : BudgetState) : Decidable (InsideWindows now st) := by
  unfold InsideWindows; infer_instance

/-- `DEFAULT_CONFIG` (config.ts): ceilings 5.00 USD daily, 0.50 USD per
call, 100 calls per hour, no providers configured. -/
def DEFAULT_CONFIG : McpServerConfig :=
  { maxDailyCostUsd := 5
    maxSingleCallCostUsd := 1/2
    maxCallsPerHour := 100
    configuredProviders := [] }

/-! ## Run store (`run-store.ts`) -/

/-- The kind tag of a run record. -/
inductive RunKind where
  | single
  | workflow
deriving Repr, DecidableEq

/-- Aggregate usage block of a run record. -/
structure RunUsage where
  promptTokens : ℕ
  completionTokens : ℕ
  totalTokens : ℕ
  estimatedProviderCostUsd : ℚ

/-- `RunRecord` (run-store.ts:8-28); `Date` fields are `Instant`s, the
free-form `input`/`output`/`steps` payloads are `JsValue`s. -/
structure RunRecord where
  runId : String
  kind : RunKind
  model : Option String
  workflowName : Option String
  success : Bool
  startTime : Instant
  endTime : Instant
  durationMs : ℕ
  usage : RunUsage
  input : Option JsValue
  output : Option JsValue
  error : Option String

/-- `MAX_RUNS` (run-store.ts:31). -/
def MAX_RUNS : ℕ := 100

/-- `addRun` (run-store.ts:46-53): unshift the new record to the front,
then trim the store to `MAX_RUNS` entries if it overflowed. -/
def addRun (run : RunRecord) (runs : List RunRecord) : List RunRecord :=
  let runs := run :: runs
  if runs.length > MAX_RUNS then runs.take MAX_RUNS else runs

/-- `getRecentRuns` (run-store.ts:58-60): `runs.slice(0, min(limit, 50))`. -/
def getRecentRuns (limit : ℕ) (runs : List RunRecord) : List RunRecord :=
  runs.take (min limit 50)

/-- `getRunById` (run-store.ts:65-67). -/
def getRunById (runId : String) (runs : List RunRecord) : Option RunRecord :=
  runs.find? (fun r => r.runId == runId)

/-! ## Workflow steps and the two topological sorts -/

/-- A workflow step (the zod `workflowStepSchema` of relay-workflow-run.ts
and relay-workflow-validate): optional fields are `Option`s, `none` being
an absent property. -/
structure WStep where
  name : String
  model : Option String
  prompt : Option String
  systemPrompt : Option String
  depends : Option (List String)
  mcp : Option String
  params : Option JsValue
  schema : Option JsValue

/-- JS truthiness of an optional string field (`step.model && step.prompt`
etc.): absent and empty strings are falsy. -/
def truthy : Option String → Bool
  | none => false
  | some s => !s.isEmpty

/-- `step.depends || []`: an absent depends array iterates like an empty
one. -/
def WStep.dependsList (s : WStep) : List String :=
  s.depends.getD []

/-- A step with only name, model, prompt and depends populated, as the
claims' concrete workflows use. -/
def mkStep (name : String) (model prompt : Option String)
    (depends : Option (List String)) : WStep :=
  ⟨name, model, prompt, none, depends, none, none, none⟩

/-- `steps.find(s => s.name === stepName)` — the lookup of the validation
path's sort (first occurrence wins). -/
def findStep (steps : List WStep) (n : String) : Option WStep :=
  steps.find? (fun s => s.name == n)

/-- The dependency list the validation path's DFS follows for a name: the
first step of that name, or nothing for an unknown name (which the
validation sort treats as a leaf). -/
def depsOf (steps : List WStep) (n : String) : List String :=
  match findStep steps n with
  | some s => s.dependsList
  | none => []

/-- `stepMap.get(stepName)` of the execution path, where
`stepMap = new Map(steps.map(s => [s.name, s]))`: successive insertion
makes the last occurrence of a duplicated name win. -/
def stepMapGet (steps : List WStep) (n : String) : Option WStep :=
  steps.reverse.find? (fun s => s.name == n)

/-- Fuel that strictly dominates the number of distinct names the DFS can
ever stack (proved in `visitV_ne_out`). -/
def sortFuel (steps : List WStep) : ℕ :=
  steps.length + (steps.map (fun s => s.dependsList.length)).sum + 1

/-- Every name the DFS can ever visit: the declared step names and every
name referenced in a depends array. -/
def allNames (steps : List WStep) : List String :=
  (steps.map (fun s => s.name) ++ steps.flatMap (fun s => s.dependsList)).dedup

/-- Mutable state of the validation-path sort (part_007
`topologicalSort`): the output `order`, the done set and the in-progress
stack of the three-color DFS. -/
structure VState where
  order : List String
  visited : List String
  visiting : List String

/-- Outcome of one validation-path DFS call: success, cycle detected at a
witness (the source records `cycleStep` and unwinds with `false`), or fuel
exhaustion — a modeling artifact proved unreachable below. -/
inductive VRes where
  | ok (st : VState)
  | cyc (w : String)
  | out

/-- The dependency loop inside `visit`: visit each name in order,
propagating the first failure. -/
def visitAllWith (visit : String → VState → VRes) : List String → VState → VRes
  | [], st => .ok st
  | d :: ds, st =>
    match visit d st with
    | .ok st' => visitAllWith visit ds st'
    | r => r

/-- `visit` of the validation path's `topologicalSort` (part_007:82-102):
done names return immediately, an in-progress name is the cycle witness,
otherwise the name is stacked, its dependencies (of its first occurrence;
none for an unknown name) are visited, and the name is moved to done and
appended to the order. -/
def visitV (steps : List WStep) : ℕ → String → VState → VRes
  | 0, _, _ => .out
  | fuel + 1, name, st =>
    if name ∈ st.visited then .ok st
    else if name ∈ st.visiting then .cyc name
    else
      match visitAllWith (visitV steps fuel) (depsOf steps name)
          { st with visiting := name :: st.visiting } with
      | .ok st2 =>
          .ok { order := st2.order ++ [name],
                visited := name :: st2.visited,
                visiting := st2.visiting.erase name }
      | r => r

/-- The top-level loop `for (const step of steps) if (!visit(step.name))`
of the validation sort. -/
def topoLoopV (steps : List WStep) (fuel : ℕ) : List WStep → VState → VRes
  | [], st => .ok st
  | s :: ss, st =>
    match visitV steps fuel s.name st with
    | .ok st' => topoLoopV steps fuel ss st'
    | r => r

/-- The return shape of the validation sort (part_007:75). -/
structure TopoSortResult where
  order : List String
  hasCycle : Bool
  cycleStep : Option String

/-- `topologicalSort` of the validation path (part_007:73-111): on any
failure the order is discarded and the cycle witness reported. -/
def topologicalSortV (steps : List WStep) : TopoSortResult :=
  match topoLoopV steps (sortFuel steps) steps ⟨[], [], []⟩ with
  | .ok st => ⟨st.order, false, none⟩
  | .cyc w => ⟨[], true, some w⟩
  | .out => ⟨[], true, none⟩

/-- Mutable state of the execution-path sort (relay-workflow-run.ts:87-121):
it collects the step objects themselves. -/
structure EState where
  sorted : List WStep
  visited : List String
  visiting : List String

/-- The two `throw`s of the execution-path sort, plus the fuel artifact. -/
inductive SortErr where
  | circular (w : String)
  | notFound (n : String)
  | fuelOut
deriving Repr, DecidableEq

/-- Outcome of one execution-path DFS call. -/
inductive ERes where
  | ok (st : EState)
  | err (e : SortErr)

/-- The dependency loop inside the execution path's `visit`. -/
def visitAllWithE (visit : String → EState → ERes) : List String → EState → ERes
  | [], st => .ok st
  | d :: ds, st =>
    match visit d st with
    | .ok st' => visitAllWithE visit ds st'
    | r => r

/-- `visit` of the execution path's `topologicalSort`
(relay-workflow-run.ts:93-114): like the validation path's, except that the
step is looked up in the last-occurrence-wins `stepMap` after stacking the
name, an unknown name throws, and the step object is pushed. -/
def visitE (steps : List WStep) : ℕ → String → EState → ERes
  | 0, _, _ => .err .fuelOut
  | fuel + 1, name, st =>
    if name ∈ st.visited then .ok st
    else if name ∈ st.visiting then .err (.circular name)
    else
      let st1 := { st with visiting := name :: st.visiting }
      match stepMapGet steps name with
      | none => .err (.notFound name)
      | some step =>
        match visitAllWithE (visitE steps fuel) step.dependsList st1 with
        | .ok st2 =>
            .ok { sorted := st2.sorted ++ [step],
                  visited := name :: st2.visited,
                  visiting := st2.visiting.erase name }
        | r => r

/-- The top-level loop of the execution sort. -/
def topoLoopE (steps : List WStep) (fuel : ℕ) : List WStep → EState → ERes
  | [], st => .ok st
  | s :: ss, st =>
    match visitE steps fuel s.name st with
    | .ok st' => topoLoopE steps fuel ss st'
    | r => r

/-- `topologicalSort` of the execution path (relay-workflow-run.ts:87-121):
returns the sorted step objects or the thrown error. -/
def topologicalSortE (steps : List WStep) : Except SortErr (List WStep) :=
  match topoLoopE steps (sortFuel steps) steps ⟨[], [], []⟩ with
  | .ok st => .ok st.sorted
  | .err e => .error e

/-- The names of the execution sort's output, when it succeeds (statement
helper). -/
def topoNamesE (steps : List WStep) : Option (List String) :=
  match topologicalSortE steps with
  | .ok sorted => some (sorted.map (fun s => s.name))
  | .error _ => none

/-- The execution sort's thrown error, when it fails (statement helper). -/
def topoErrE (steps : List WStep) : Option SortErr :=
  match topologicalSortE steps with
  | .ok _ => none
  | .error e => some e

/-- `b` is a dependency of `a` in the step list (an edge of the dependency
graph, dependencies resolved at the first occurrence of `a`). -/
def DepEdge (steps : List WStep) (a b : String) : Prop :=
  b ∈ depsOf steps a

instance (steps : List WStep) (a b : String) : Decidable (DepEdge steps a b) := by
  unfold DepEdge; infer_instance

/-- A nonempty dependency chain from `a` down to `c`. -/
inductive DepPath (steps : List WStep) : String → String → Prop where
  | single {a b : String} : DepEdge steps a b → DepPath steps a b
  | cons {a b c : String} : DepEdge steps a b → DepPath steps b c → DepPath steps a c

/-- The step list contains a dependency cycle. -/
def HasCycle (steps : List WStep) : Prop :=
  ∃ n, DepPath steps n n

/-- Fuel-bounded reachability along dependency edges (decidable mirror of
`DepPath`, for concrete inputs). -/
def reachesB (steps : List WStep) : ℕ → String → String → Bool
  | 0, _, _ => false
  | fuel + 1, a, b =>
      (depsOf steps a).any (fun d => d == b || reachesB steps fuel d b)

/-- The claim's "no ordering constraint between them": neither step's name
reaches the other along dependency edges. -/
def unconstrainedB (steps : List WStep) (a b : String) : Bool :=
  !reachesB steps (sortFuel steps) a b && !reachesB steps (sortFuel steps) b a

/-- The tie-break property claimed of the resolver: any two steps with no
ordering constraint between them appear in the output in their original
declaration order. -/
def TieBreakRespected (steps : List WStep) (out : List String) : Prop :=
  ∀ i j : Fin steps.length, i < j →
    unconstrainedB steps (steps.get i).name (steps.get j).name = true →
    out.indexOf (steps.get i).name < out.indexOf (steps.get j).name

instance (steps : List WStep) (out : List String) :
    Decidable (TieBreakRespected steps out) := by
  unfold TieBreakRespected; infer_instance

/-! ## Cost estimator (`budget/estimator.ts`) -/

/-- The `PRICING` table: per-1k-token input and output prices. -/
def PRICING : List (String × (ℚ × ℚ)) :=
  [ ("openai:gpt-4o", (0.0025, 0.01)),
    ("openai:gpt-4o-mini", (0.00015, 0.0006)),
    ("openai:gpt-4-turbo", (0.01, 0.03)),
    ("openai:gpt-4", (0.03, 0.06)),
    ("openai:gpt-3.5-turbo", (0.0005, 0.0015)),
    ("openai:o1", (0.015, 0.06)),
    ("openai:o1-mini", (0.003, 0.012)),
    ("openai:o1-preview", (0.015, 0.06)),
    ("anthropic:claude-3-5-sonnet-20241022", (0.003, 0.015)),
    ("anthropic:claude-3-5-sonnet-latest", (0.003, 0.015)),
    ("anthropic:claude-3-5-haiku-20241022", (0.0008, 0.004)),
    ("anthropic:claude-3-5-haiku-latest", (0.0008, 0.004)),
    ("anthropic:claude-3-opus-20240229", (0.015, 0.075)),
    ("anthropic:claude-3-sonnet-20240229", (0.003, 0.015)),
    ("anthropic:claude-3-haiku-20240307", (0.00025, 0.00125)),
    ("google:gemini-2.0-flash", (0.0001, 0.0004)),
    ("google:gemini-2.0-flash-exp", (0.0001, 0.0004)),
    ("google:gemini-1.5-pro", (0.00125, 0.005)),
    ("google:gemini-1.5-flash", (0.000075, 0.0003)),
    ("xai:grok-2", (0.002, 0.01)),
    ("xai:grok-beta", (0.005, 0.015)) ]

/-- `DEFAULT_PRICING`: the conservative fallback for unknown models. -/
def DEFAULT_PRICING : ℚ × ℚ := (0.01, 0.03)

/-- `getModelPricing`. -/
def getModelPricing (model : String) : ℚ × ℚ :=
  (PRICING.lookup model).getD DEFAULT_PRICING

/-- `estimateTokens`: `Math.ceil(text.length / 4)`. -/
def estimateTokens (text : String) : ℕ :=
  (text.length + 3) / 4

/-- `estimateProviderCost` (estimator, part_003): heuristic input tokens
from `(systemPrompt || '') + prompt`, the model's (or default) pricing,
and an assumed output token count (500 at every call site). -/
def estimateProviderCost (model prompt : String) (systemPrompt : Option String)
    (estimatedOutputTokens : ℕ) : ℚ :=
  let inputTokens := estimateTokens (systemPrompt.getD "" ++ prompt)
  let pricing := getModelPricing model
  (inputTokens : ℚ) / 1000 * pricing.1 + (estimatedOutputTokens : ℚ) / 1000 * pricing.2

/-- `calculateActualCost`: provider-reported token counts priced by the
same table. -/
def calculateActualCost (model : String) (promptTokens completionTokens : ℕ) : ℚ :=
  let pricing := getModelPricing model
  (promptTokens : ℚ) / 1000 * pricing.1 + (completionTokens : ℚ) / 1000 * pricing.2

/-- `estimateWorkflowCost`: the sum over steps that have both a model and a
prompt (JS truthiness). -/
def estimateWorkflowCost (steps : List WStep) : ℚ :=
  steps.foldl (fun total s =>
    if truthy s.model && truthy s.prompt then
      total + estimateProviderCost (s.model.getD "") (s.prompt.getD "") s.systemPrompt 500
    else total) 0

/-- `isKnownModel` (part_007): membership in the pricing table. -/
def isKnownModel (model : String) : Bool :=
  (PRICING.lookup model).isSome

/-- `isValidModelFormat` (part_007:53-61). -/
def isValidModelFormat (model : String) : Bool :=
  match splitColon model with
  | [provider, modelId] =>
      (provider ∈ ["openai", "anthropic", "google", "xai", "local"] : Bool)
        && modelId.length > 0
  | _ => false

/-! ## `relay_workflow_validate` (part_007) -/

/-- The error messages of the validation tool, as tags carrying their
parameters. -/
inductive VErrKind where
  | duplicateName (count : ℕ)
  | nameRequired
  | promptRequired
  | modelRequired
  | invalidModelFormat (model : String)
  | invalidMcpFormat (mcp : String)
  | depNotFound (dep : String)
  | selfDependency
  | circular (w : String)
deriving Repr, DecidableEq

/-- `ValidationError` (part_007:28-32). -/
structure ValidationError where
  step : String
  field : String
  kind : VErrKind
deriving Repr, DecidableEq

/-- The warning messages of the validation tool. -/
inductive VWarnKind where
  | passThrough
  | unknownModel (model : String)
deriving Repr, DecidableEq

/-- `ValidationWarning` (part_007:34-37). -/
structure ValidationWarning where
  step : String
  kind : VWarnKind
deriving Repr, DecidableEq

/-- The `structure` block of the validation response. -/
structure ValidateStructure where
  totalSteps : ℕ
  executionOrder : List String
  parallelGroups : List (List String)
deriving Repr, DecidableEq

/-- `RelayWorkflowValidateResponse` (part_007:39-48); the TS field
`structure` is `struct` here (`structure` is a Lean keyword). -/
structure ValidateResponse where
  valid : Bool
  errors : List ValidationError
  warnings : List ValidationWarning
  struct : ValidateStructure
deriving Repr, DecidableEq

/-- First-occurrence deduplication, the iteration order of the
`nameCount` map entries (JS `Map` preserves insertion order). -/
def firstDedupGo (seen : List String) : List String → List String
  | [] => []
  | x :: xs =>
      if x ∈ seen then firstDedupGo seen xs
      else x :: firstDedupGo (x :: seen) xs

/-- Number of steps carrying a name (the `nameCount` map's entry). -/
def nameCount (steps : List WStep) (n : String) : ℕ :=
  (steps.filter (fun s => s.name == n)).length

/-- The duplicate-name errors (part_007:165-177), in first-occurrence
order. -/
def dupNameErrors (steps : List WStep) : List ValidationError :=
  (firstDedupGo [] (steps.map (fun s => s.name))).filterMap (fun n =>
    if nameCount steps n > 1 then
      some ⟨n, "name", .duplicateName (nameCount steps n)⟩
    else none)

/-- The per-step checks of `relayWorkflowValidate` (part_007:180-266),
returning this step's errors and warnings in source order.  An unnamed
step short-circuits (`continue`). -/
def stepChecks (stepNames : List String) (step : WStep) :
    List ValidationError × List ValidationWarning :=
  if step.name.isEmpty || (trimChars step.name.data).isEmpty then
    ([⟨"(unnamed)", "name", .nameRequired⟩], [])
  else
    let hasModel := truthy step.model
    let hasPrompt := truthy step.prompt
    let hasMcp := truthy step.mcp
    let e1 : List ValidationError :=
      if hasModel && !hasPrompt then [⟨step.name, "prompt", .promptRequired⟩] else []
    let e2 : List ValidationError :=
      if hasPrompt && !hasModel then [⟨step.name, "model", .modelRequired⟩] else []
    let w1 : List ValidationWarning :=
      if !hasModel && !hasMcp then [⟨step.name, .passThrough⟩] else []
    let modelChecks : List ValidationError × List ValidationWarning :=
      if hasModel then
        if !isValidModelFormat (step.model.getD "") then
          ([⟨step.name, "model", .invalidModelFormat (step.model.getD "")⟩], [])
        else if !isKnownModel (step.model.getD "") then
          ([], [⟨step.name, .unknownModel (step.model.getD "")⟩])
        else ([], [])
      else ([], [])
    let mcpErrs : List ValidationError :=
      if hasMcp && (splitColon (step.mcp.getD "")).length ≠ 2 then
        [⟨step.name, "mcp", .invalidMcpFormat (step.mcp.getD "")⟩]
      else []
    let depErrs : List ValidationError :=
      step.dependsList.flatMap (fun dep =>
        (if dep ∉ stepNames then [⟨step.name, "depends", .depNotFound dep⟩] else [])
          ++ (if dep = step.name then [⟨step.name, "depends", .selfDependency⟩] else []))
    (e1 ++ e2 ++ modelChecks.1 ++ mcpErrs ++ depErrs, w1 ++ modelChecks.2)

/-- The memoized `getLevel` (part_007:122-135): levels as an
insertion-ordered association list, fuel-bounded (the source recursion
terminates on the acyclic inputs it is called on). -/
def getLevelMemo (steps : List WStep) : ℕ → String → List (String × ℕ) → ℕ × List (String × ℕ)
  | 0, _, lv => (0, lv)
  | fuel + 1, n, lv =>
    match lv.lookup n with
    | some k => (k, lv)
    | none =>
      match findStep steps n with
      | some s =>
          if s.dependsList.isEmpty then (0, lv ++ [(n, 0)])
          else
            let r := maxLevels (getLevelMemo steps fuel) s.dependsList lv
            (r.1 + 1, r.2 ++ [(n, r.1 + 1)])
      | none => (0, lv ++ [(n, 0)])
where
  maxLevels (getLv : String → List (String × ℕ) → ℕ × List (String × ℕ)) :
      List String → List (String × ℕ) → ℕ × List (String × ℕ)
    | [], lv => (0, lv)
    | d :: ds, lv =>
      let r1 := getLv d lv
      let r2 := maxLevels getLv ds r1.2
      (max r1.1 r2.1, r2.2)

/-- `calculateParallelGroups` (part_007:116-155): compute every step's
level, then group names by level in map order. -/
def calculateParallelGroups (steps : List WStep) : List (List String) :=
  let lv := steps.foldl (fun lv s => (getLevelMemo steps (sortFuel steps) s.name lv).2) []
  if lv.isEmpty then []
  else
    let maxLevel := (lv.map (fun p => p.2)).foldl max 0
    ((List.range (maxLevel + 1)).map (fun i =>
      (lv.filter (fun p => p.2 == i)).map (fun p => p.1))).filter (fun g => !g.isEmpty)

/-- `relayWorkflowValidate` (part_007:157-292): duplicate-name errors,
per-step shape checks, cycle detection via the validation sort, and the
structural summary. -/
def relayWorkflowValidate (steps : List WStep) : ValidateResponse :=
  let stepNames := steps.map (fun s => s.name)
  let perStep := steps.map (stepChecks stepNames)
  let tsr := topologicalSortV steps
  let cycErrs : List ValidationError :=
    if tsr.hasCycle then
      [⟨tsr.cycleStep.getD "(unknown)", "depends",
        .circular (tsr.cycleStep.getD "(unknown)")⟩]
    else []
  let errs := dupNameErrors steps ++ (perStep.map Prod.fst).flatten ++ cycErrs
  let warns := (perStep.map Prod.snd).flatten
  { valid := errs.isEmpty
    errors := errs
    warnings := warns
    struct :=
      { totalSteps := steps.length
        executionOrder := if tsr.hasCycle then [] else tsr.order
        parallelGroups := if tsr.hasCycle then [] else calculateParallelGroups steps } }

/-! ## Single-call path (`relay-run.ts`) -/

/-- The usage block of a single-call response. -/
structure Usage where
  promptTokens : ℕ
  completionTokens : ℕ
  totalTokens : ℕ
  estimatedProviderCostUsd : ℚ
deriving Repr, DecidableEq

/-- The error messages a `relay_run` call can produce (all surfaced with
code `EXECUTION_ERROR` by the single catch), as tags. -/
inductive RelayRunFailure where
  | invalidModelFormat (model : String)
  | providerNotConfigured (provider : String)
  | budgetDenied (reason : Option BudgetDenialReason)
  | unsupportedProvider (provider : String)
  | providerError (message : String)
deriving Repr, DecidableEq

/-- `RelayRunResponse` (relay-run.ts:24-41); `output` is the empty string
on failure as in the source's catch. -/
structure RelayRunResponseM where
  success : Bool
  output : JsValue
  model : String
  usage : Usage
  error : Option RelayRunFailure

/-- What a provider capability reports on success. -/
structure ProviderResult where
  output : JsValue
  promptTokens : ℕ
  completionTokens : ℕ

/-- The provider capability (the `executeOpenAI`/`executeAnthropic`/… HTTP
clients, out of the core's scope): given provider, model id, prompt,
optional system prompt and optional schema, return output and token
counts, or a thrown error message. -/
def Oracle : Type :=
  String → String → String → Option String → Option JsValue →
    Except String ProviderResult

/-- `parseModel` (relay-run.ts:46-52). -/
def parseModel (model : String) : Except RelayRunFailure (String × String) :=
  match splitColon model with
  | [provider, modelId] => .ok (provider, modelId)
  | _ => .error (.invalidModelFormat model)

/-- The failure response assembled by `relayRun`'s catch. -/
def relayRunFail (model : String) (e : RelayRunFailure) : RelayRunResponseM :=
  { success := false
    output := .str ""
    model := model
    usage := ⟨0, 0, 0, 0⟩
    error := some e }

/-- `RelayRunInput`. -/
structure RelayRunInputM where
  model : String
  prompt : String
  systemPrompt : Option String
  schema : Option JsValue

/-- `relayRun` (relay-run.ts:277-399): parse the model, require the
provider's key, estimate and gate via `checkBudget` (the per-call budget
check), invoke the provider, then `recordCost` the actual cost.  The
budget state is threaded explicitly; ledger writes are the out-of-scope
run store. -/
def relayRunM (cfg : McpServerConfig) (oracle : Oracle) (now : Instant)
    (input : RelayRunInputM) (st : BudgetState) : RelayRunResponseM × BudgetState :=
  match parseModel input.model with
  | .error e => (relayRunFail input.model e, st)
  | .ok (provider, modelId) =>
    if !(cfg.configuredProviders.contains provider) then
      (relayRunFail input.model (.providerNotConfigured provider), st)
    else
      let estimatedCost := estimateProviderCost input.model input.prompt input.systemPrompt 500
      let chk := checkBudget cfg now estimatedCost st
      if !chk.1.allowed then
        (relayRunFail input.model (.budgetDenied chk.1.reason), chk.2)
      else if !(["openai", "anthropic", "google", "xai"].contains provider) then
        (relayRunFail input.model (.unsupportedProvider provider), chk.2)
      else
        match oracle provider modelId input.prompt input.systemPrompt input.schema with
        | .error msg => (relayRunFail input.model (.providerError msg), chk.2)
        | .ok r =>
          let actualCost := calculateActualCost input.model r.promptTokens r.completionTokens
          let st2 := recordCost now actualCost chk.2
          ({ success := true
             output := r.output
             model := input.model
             usage := ⟨r.promptTokens, r.completionTokens,
               r.promptTokens + r.completionTokens, actualCost⟩
             error := none }, st2)

/-! ## Workflow engine (`relay-workflow-run.ts`) -/

/-- The usage block of a step result. -/
structure StepUsage where
  promptTokens : ℕ
  completionTokens : ℕ
  estimatedProviderCostUsd : ℚ
deriving Repr, DecidableEq

/-- `WorkflowStepResult`; `error` carries the step's failure (surfaced as
code `STEP_EXECUTION_ERROR` in the source). -/
structure WorkflowStepResultM where
  success : Bool
  output : JsValue
  usage : Option StepUsage
  error : Option RelayRunFailure

/-- The workflow-level error messages (all surfaced as `WORKFLOW_ERROR`). -/
inductive WorkflowFailure where
  | sortFailed (e : SortErr)
  | budgetDenied (reason : Option BudgetDenialReason)
  | providerNotConfigured (provider : String) (stepName : String)
  | stepFailed (stepName : String) (e : RelayRunFailure)
deriving Repr, DecidableEq

/-- `RelayWorkflowRunResponse`; `finalOutput = none` models the JS
`undefined` of an empty workflow. -/
structure RelayWorkflowRunResponseM where
  success : Bool
  steps : List (String × WorkflowStepResultM)
  finalOutput : Option JsValue
  totalTokens : ℕ
  totalCostUsd : ℚ
  error : Option WorkflowFailure

/-- `RelayWorkflowRunInput`. -/
structure WorkflowInputM where
  name : String
  steps : List WStep
  input : JsValue

/-- JS object property assignment on an insertion-ordered association
list: replace in place if the key exists, else append. -/
def setEntry {α : Type} (l : List (String × α)) (k : String) (v : α) :
    List (String × α) :=
  if (l.lookup k).isSome then
    l.map (fun p => if p.1 == k then (k, v) else p)
  else l ++ [(k, v)]

/-- Outcome of the step-execution loop: all steps done, or aborted at the
first failing step (the re-thrown exception caught by the outer
handler). -/
inductive ExecOut where
  | done (ctxSteps : List (String × JsValue))
      (results : List (String × WorkflowStepResultM))
      (totalTokens : ℕ) (totalCost : ℚ) (st : BudgetState)
  | aborted (results : List (String × WorkflowStepResultM))
      (failedStep : String) (e : RelayRunFailure)
      (totalTokens : ℕ) (totalCost : ℚ) (st : BudgetState)

/-- The `for (const step of sortedSteps)` loop of `relayWorkflowRun`
(relay-workflow-run.ts:197-269): an AI step interpolates its templates
against the current context and delegates to `relayRun`, folding output
and usage on success and aborting the workflow on failure; an MCP step is
the placeholder; anything else is a pass-through with null output. -/
def execSteps (cfg : McpServerConfig) (oracle : Oracle) (now : Instant)
    (input : JsValue) :
    List WStep → List (String × JsValue) → List (String × WorkflowStepResultM) →
      ℕ → ℚ → BudgetState → ExecOut
  | [], ctxSteps, results, tok, cost, st => .done ctxSteps results tok cost st
  | step :: rest, ctxSteps, results, tok, cost, st =>
    if truthy step.model && truthy step.prompt then
      let ctx := JsValue.obj [("input", input), ("steps", .obj ctxSteps)]
      let iPrompt := interpolate (step.prompt.getD "") ctx
      let iSys := if truthy step.systemPrompt then
          some (interpolate (step.systemPrompt.getD "") ctx) else none
      let r := relayRunM cfg oracle now
        ⟨step.model.getD "", iPrompt, iSys, step.schema⟩ st
      if r.1.success then
        execSteps cfg oracle now input rest
          (setEntry ctxSteps step.name (.obj [("output", r.1.output)]))
          (setEntry results step.name
            ⟨true, r.1.output,
              some ⟨r.1.usage.promptTokens, r.1.usage.completionTokens,
                r.1.usage.estimatedProviderCostUsd⟩, none⟩)
          (tok + r.1.usage.totalTokens)
          (cost + r.1.usage.estimatedProviderCostUsd) r.2
      else
        .aborted
          (setEntry results step.name
            ⟨false, .null, none,
              some (r.1.error.getD (.providerError "Step execution failed"))⟩)
          step.name (r.1.error.getD (.providerError "Step execution failed"))
          tok cost r.2
    else if truthy step.mcp then
      execSteps cfg oracle now input rest
        (setEntry ctxSteps step.name
          (.obj [("output", .obj [("message", .str "MCP step executed (placeholder)")])]))
        (setEntry results step.name
          ⟨true, .obj [("message", .str "MCP step executed (placeholder)")], none, none⟩)
        tok cost st
    else
      execSteps cfg oracle now input rest
        (setEntry ctxSteps step.name (.obj [("output", .null)]))
        (setEntry results step.name ⟨true, .null, none, none⟩)
        tok cost st

/-- The failure response of `relayWorkflowRun`'s outer catch: partial step
results and totals are preserved, `finalOutput` is null. -/
def workflowFail (results : List (String × WorkflowStepResultM))
    (tok : ℕ) (cost : ℚ) (e : WorkflowFailure) : RelayWorkflowRunResponseM :=
  { success := false
    steps := results
    finalOutput := some .null
    totalTokens := tok
    totalCostUsd := cost
    error := some e }

/-- The provider of an AI step: `step.model!.split(':')[0]`. -/
def stepProvider (s : WStep) : String :=
  (splitColon (s.model.getD "")).headD ""

/-- `relayWorkflowRun` (relay-workflow-run.ts:162-355): sort, single
aggregate budget check over the AI steps' estimates, fail-fast provider
check, sequential execution, final output = last sorted step's output.
Run ids, trace URLs, durations and the context-reduction string are
elided (out-of-scope observability). -/
def relayWorkflowRunM (cfg : McpServerConfig) (oracle : Oracle) (now : Instant)
    (wf : WorkflowInputM) (st : BudgetState) :
    RelayWorkflowRunResponseM × BudgetState :=
  match topologicalSortE wf.steps with
  | .error e => (workflowFail [] 0 0 (.sortFailed e), st)
  | .ok sortedSteps =>
    let aiSteps := sortedSteps.filter (fun s => truthy s.model && truthy s.prompt)
    let estimatedCost := estimateWorkflowCost aiSteps
    let chk := checkBudget cfg now estimatedCost st
    if !chk.1.allowed then
      (workflowFail [] 0 0 (.budgetDenied chk.1.reason), chk.2)
    else
      match aiSteps.find? (fun s => !(cfg.configuredProviders.contains (stepProvider s))) with
      | some s =>
        (workflowFail [] 0 0 (.providerNotConfigured (stepProvider s) s.name), chk.2)
      | none =>
        match execSteps cfg oracle now wf.input sortedSteps [] [] 0 0 chk.2 with
        | .done _ results tok cost st2 =>
          ({ success := true
             steps := results
             finalOutput := (sortedSteps.getLast?).bind
               (fun last => (results.lookup last.name).map (fun r => r.output))
             totalTokens := tok
             totalCostUsd := cost
             error := none }, st2)
        | .aborted results fname e tok cost st2 =>
          (workflowFail results tok cost (.stepFailed fname e), st2)

/-- Order soundness of a DFS output prefix: every ordered name's
dependencies are ordered strictly before it. -/
def OrderOK (steps : List WStep) (order : List String) : Prop :=
  ∀ n ∈ order, ∀ m ∈ depsOf steps n, m ∈ order ∧ order.indexOf m < order.indexOf n

/-- The DFS state invariant: the order is duplicate-free and sound, the
done set is exactly the ordered set, done names are off the stack, and
everything stays inside the universe of names. -/
structure VInv (steps : List WStep) (st : VState) : Prop where
  order_nodup : st.order.Nodup
  visited_iff : ∀ n, n ∈ st.visited ↔ n ∈ st.order
  order_disj : ∀ n ∈ st.order, n ∉ st.visiting
  order_ok : OrderOK steps st.order
  order_sub : ∀ n ∈ st.order, n ∈ allNames steps
  visiting_nodup : st.visiting.Nodup
  visiting_sub : ∀ n ∈ st.visiting, n ∈ allNames steps

/-- The in-progress stack is a dependency chain: each entry is a
dependency of the entry below it. -/
def StackChain (steps : List WStep) (visiting : List String) : Prop :=
  List.Chain' (fun a b => DepEdge steps b a) visiting

/-- Correspondence of the two DFS states: same order (as names), same
done set and stack, and every collected step is its own name's lookup. -/
def EVMatch (steps : List WStep) (se : EState) (sv : VState) : Prop :=
  se.sorted.map (fun s => s.name) = sv.order
  ∧ se.visited = sv.visited
  ∧ se.visiting = sv.visiting
  ∧ ∀ s ∈ se.sorted, stepMapGet steps s.name = some s

/-- Correspondence of the two DFS results. -/
def ERelV (steps : List WStep) : ERes → VRes → Prop
  | .ok se, .ok sv => EVMatch steps se sv
  | .err (.circular w), .cyc w' => w = w'
  | .err .fuelOut, .out => True
  | _, _ => False

/-! ## Unconditional structure of the execution sort's output -/

/-- The light invariant of the execution-path DFS, with no assumptions on
the step list: collected names are duplicate-free, the done set is exactly
the collected names, and collected names are off the stack. -/
structure EInv (st : EState) : Prop where
  nodup : (st.sorted.map (fun s => s.name)).Nodup
  visited_iff : ∀ n, n ∈ st.visited ↔ n ∈ st.sorted.map (fun s => s.name)
  disj : ∀ n ∈ st.sorted.map (fun s => s.name), n ∉ st.visiting

/-- The tie-break counterexample for C2: `B` precedes `C` in the list, no
ordering constraint relates them, yet the execution sort orders `C`
first (its DFS pushes `A`'s dependency `C` before reaching `B`). -/
def c2cex : List WStep :=
  [mkStep "A" none none (some ["C"]), mkStep "B" none none none,
   mkStep "C" none none none]

/-- The divergence counterexample for C3: a single step whose dependency
names no step in the list. -/
def c3cex : List WStep := [mkStep "A" none none (some ["B"])]

/-- A concrete two-step list (unique names, resolvable dependencies) for
the C3 witness. -/
def c3wit : List WStep :=
  [mkStep "A" none none (some ["B"]), mkStep "B" none none none]

/-- The two-step cycle used by the C9 witness. -/
def c9wit : List WStep :=
  [mkStep "A" none none (some ["B"]), mkStep "B" none none (some ["A"])]

/-- A concrete run record for witnesses. -/
def demoRun : RunRecord :=
  { runId := "run_1"
    kind := .single
    model := some "openai:gpt-4o"
    workflowName := none
    success := true
    startTime := ⟨"2026-01-01", 0⟩
    endTime := ⟨"2026-01-01", 5⟩
    durationMs := 5
    usage := ⟨1, 2, 3, 0⟩
    input := none
    output := none
    error := none }

/-! ## Claim C1: the per-call budget re-check inside the workflow loop -/

/-- The C1 scenario's config: 1 USD daily ceiling, 1 USD per-call ceiling,
100 calls per hour, the openai key configured. -/
def c1cfg : McpServerConfig := ⟨1, 1, 100, ["openai"]⟩

/-- The C1 scenario's clock. -/
def c1now : Instant := ⟨"2026-01-01", 0⟩

/-- The C1 scenario's fresh tracker state. -/
def c1st : BudgetState := ⟨0, 0, "2026-01-01", 0⟩

/-- The C1 provider: the first step's prompt draws a 2,000,000-token
completion (actual cost 1.20000015 USD, over the 1 USD daily ceiling);
any other prompt is cheap. -/
def c1oracle : Oracle := fun _ _ prompt _ _ =>
  if prompt = "hi" then .ok ⟨.str "big", 1, 2000000⟩ else .ok ⟨.str "ok", 1, 1⟩

/-- First step of the C1 workflow. -/
def c1s1 : WStep := mkStep "s1" (some "openai:gpt-4o-mini") (some "hi") none

/-- Second step of the C1 workflow, dependent on the first. -/
def c1s2 : WStep := mkStep "s2" (some "openai:gpt-4o-mini") (some "yo") (some ["s1"])

/-- The C1 workflow. -/
def c1wf : WorkflowInputM := ⟨"wf", [c1s1, c1s2], .obj []⟩

/-- The tracker state after the first C1 step: daily spend 1.20000015 USD. -/
def c1stMid : BudgetState := ⟨24000003 / 20000000, 1, "2026-01-01", 0⟩

/-- The first C1 step's recorded result. -/
def c1res1 : WorkflowStepResultM :=
  ⟨true, .str "big", some ⟨1, 2000000, 24000003 / 20000000⟩, none⟩

/-- The second C1 step's recorded result: denied by the per-call budget
re-check. -/
def c1res2 : WorkflowStepResultM :=
  ⟨false, .null, none, some (.budgetDenied (some .dailyBudget))⟩

/-- The C8 scenario's config: generous ceilings, openai configured. -/
def c8cfg : McpServerConfig := ⟨1000, 1000, 100, ["openai"]⟩

/-- The C8 scenario's clock. -/
def c8now : Instant := ⟨"2026-01-01", 0⟩

/-- The C8 scenario's fresh tracker state. -/
def c8st : BudgetState := ⟨0, 0, "2026-01-01", 0⟩

/-- The C8 provider: the first step's prompt makes the provider throw. -/
def c8oracle : Oracle := fun _ _ prompt _ _ =>
  if prompt = "failme" then .error "provider down" else .ok ⟨.str "ok", 1, 1⟩

/-- Step `A` of the C8 workflow (no dependencies; its provider call
throws). -/
def c8sA : WStep := mkStep "A" (some "openai:gpt-4o-mini") (some "failme") none

/-- Step `B` of the C8 workflow, dependent on `A` (never runs). -/
def c8sB : WStep := mkStep "B" (some "openai:gpt-4o-mini") (some "pb") (some ["A"])

/-- The C8 workflow: declared `[B, A]`, resolved order `[A, B]`. -/
def c8wf : WorkflowInputM := ⟨"wf8", [c8sB, c8sA], .obj []⟩

/-! ## Theorems -/

theorem matchPlaceholder_length {cs s rest : List Char}
    (h : matchPlaceholder cs = some (s, rest)) : rest.length < cs.length := by
  unfold matchPlaceholder at h
  split at h
  · exact absurd h (by simp)
  · next tail hcont hdrop =>
    simp only [Option.some.injEq, Prod.mk.injEq] at h
    obtain ⟨-, h2⟩ := h
    subst h2
    have hsub : (List.dropWhile (fun c => c != '\x7d') cs).Sublist cs :=
      List.dropWhile_sublist _
    have hlen : ('\x7d' :: '\x7d' :: tail).length ≤ cs.length := by
      rw [← hdrop]; exact hsub.length_le
    simp only [List.length_cons] at hlen
    omega
  · exact absurd h (by simp)

theorem resolveParts_none : ∀ ps : List String, resolveParts none ps = ""
  | [] => rfl
  | _ :: _ => rfl

theorem resolveParts_null (p : String) (ps : List String) :
    resolveParts (some .null) (p :: ps) = "" := rfl

/-- Claim C4: `interpolate` substitutes each double-brace placeholder with
the context value reached by walking its dot-separated path, and any
placeholder whose intermediate or leaf value is missing resolves to the
empty string, never aborting: once the walk reaches a missing
(`undefined`) value the placeholder renders as `""`, a `null` value met
before the path is exhausted also renders as `""`, and on the claim's
concrete examples the input field and step output are substituted while an
unresolvable path yields the empty string. -/
theorem c4_interpolation :
    interpolate "\x7b\x7binput.x\x7d\x7d" (mkContext (.obj [("x", .str "5")]) []) = "5"
    ∧ interpolate "\x7b\x7bsteps.a.output\x7d\x7d"
        (mkContext (.obj []) [("a", .obj [("output", .str "done")])]) = "done"
    ∧ interpolate "\x7b\x7bsteps.missing.output\x7d\x7d"
        (mkContext (.obj [("x", .str "5")]) []) = ""
    ∧ (∀ ps : List String, resolveParts none ps = "")
    ∧ (∀ (p : String) (ps : List String), resolveParts (some .null) (p :: ps) = "") := by
  exact ⟨by decide, by decide, by decide, resolveParts_none, resolveParts_null⟩

theorem shouldResetHourly_eq_false {now : Instant} {st : BudgetState}
    (h : now.millis - st.lastHourlyReset < hourInMs) :
    shouldResetHourly now st = false := by
  unfold shouldResetHourly
  simp only [ge_iff_le, decide_eq_false_iff_not, not_le]
  omega

theorem shouldResetHourly_eq_true {now : Instant} {st : BudgetState}
    (h : now.millis - st.lastHourlyReset ≥ hourInMs) :
    shouldResetHourly now st = true := by
  unfold shouldResetHourly
  simpa using h

theorem maybeReset_eq (now : Instant) (st : BudgetState) :
    maybeResetCounters now st =
      { dailySpendUsd := if st.lastResetDate ≠ now.dateUTC then 0 else st.dailySpendUsd,
        hourlyCallCount := if shouldResetHourly now st then 0 else st.hourlyCallCount,
        lastResetDate := now.dateUTC,
        lastHourlyReset := if shouldResetHourly now st then now.millis
                           else st.lastHourlyReset } := by
  unfold maybeResetCounters
  by_cases hd : st.lastResetDate ≠ now.dateUTC <;>
    by_cases hh : shouldResetHourly now st = true <;>
    simp_all [shouldResetHourly] <;>
    (simp only [if_neg (show ¬ hourInMs ≤ now.millis - st.lastHourlyReset by omega)];
      try (cases st; simp_all))

theorem maybeReset_dailySpend (now : Instant) (st : BudgetState) :
    (maybeResetCounters now st).dailySpendUsd =
      if st.lastResetDate ≠ now.dateUTC then 0 else st.dailySpendUsd := by
  rw [maybeReset_eq]

theorem maybeReset_lastResetDate (now : Instant) (st : BudgetState) :
    (maybeResetCounters now st).lastResetDate = now.dateUTC := by
  rw [maybeReset_eq]

theorem maybeReset_hourlyCount (now : Instant) (st : BudgetState) :
    (maybeResetCounters now st).hourlyCallCount =
      if shouldResetHourly now st then 0 else st.hourlyCallCount := by
  rw [maybeReset_eq]

theorem maybeReset_lastHourly (now : Instant) (st : BudgetState) :
    (maybeResetCounters now st).lastHourlyReset =
      if shouldResetHourly now st then now.millis else st.lastHourlyReset := by
  rw [maybeReset_eq]

theorem maybeReset_inside {now : Instant} {st : BudgetState}
    (h : InsideWindows now st) : maybeResetCounters now st = st := by
  obtain ⟨hd, hh⟩ := h
  cases st with
  | mk d hc lr lh =>
    simp only at hd hh
    rw [maybeReset_eq, shouldResetHourly_eq_false (by simpa using hh)]
    simp [hd]

theorem recordCost_inside {now : Instant} {st : BudgetState} (c : ℚ)
    (h : InsideWindows now st) :
    recordCost now c st =
      { st with dailySpendUsd := st.dailySpendUsd + c,
                hourlyCallCount := st.hourlyCallCount + 1 } := by
  unfold recordCost
  rw [maybeReset_inside h]

/-- Claim C5: `checkBudget` evaluates the three ceilings in the fixed order
hourly-call-count, daily-spend, per-call-cost — the first failing check
names the denial and short-circuits the rest — and it denies if and only
if one of the three configured ceilings would be exceeded by admitting the
prospective call, the counters being those after the lazy window
rollover. -/
theorem c5_checkBudget_policy (cfg : McpServerConfig) (now : Instant) (est : ℚ)
    (st : BudgetState) :
    ((checkBudget cfg now est st).1.allowed = false ↔
      ((maybeResetCounters now st).hourlyCallCount ≥ cfg.maxCallsPerHour
        ∨ (maybeResetCounters now st).dailySpendUsd + est > cfg.maxDailyCostUsd
        ∨ est > cfg.maxSingleCallCostUsd))
    ∧ (checkBudget cfg now est st).1.reason =
        (if (maybeResetCounters now st).hourlyCallCount ≥ cfg.maxCallsPerHour then
          some .hourlyLimit
         else if (maybeResetCounters now st).dailySpendUsd + est > cfg.maxDailyCostUsd then
          some .dailyBudget
         else if est > cfg.maxSingleCallCostUsd then
          some .singleCallLimit
         else none) := by
  unfold checkBudget
  by_cases h1 : (maybeResetCounters now st).hourlyCallCount ≥ cfg.maxCallsPerHour <;>
    by_cases h2 : (maybeResetCounters now st).dailySpendUsd + est > cfg.maxDailyCostUsd <;>
    by_cases h3 : est > cfg.maxSingleCallCostUsd <;>
    simp [h1, h2, h3]

/-- Claim C6: within one window (no daily or hourly boundary crossed by any
call), a sequence of `recordCost` calls adds exactly the sum of the actual
costs to `dailySpendUsd`, bumps the hourly call counter by exactly one per
call, leaves the window markers untouched, and — when all actual costs are
non-negative — never decreases the daily spend; `recordCost` is total, so
recording never fails. -/
theorem c6_recordCost_window (calls : List (Instant × ℚ)) (st : BudgetState)
    (hw : ∀ c ∈ calls, InsideWindows c.1 st) :
    (recordAll calls st).dailySpendUsd = st.dailySpendUsd + (calls.map (fun c => c.2)).sum
    ∧ (recordAll calls st).hourlyCallCount = st.hourlyCallCount + calls.length
    ∧ (recordAll calls st).lastResetDate = st.lastResetDate
    ∧ (recordAll calls st).lastHourlyReset = st.lastHourlyReset
    ∧ ((∀ c ∈ calls, 0 ≤ c.2) → st.dailySpendUsd ≤ (recordAll calls st).dailySpendUsd) := by
  induction calls generalizing st with
  | nil =>
    refine ⟨by simp [recordAll], by simp [recordAll], rfl, rfl, fun _ => by simp [recordAll]⟩
  | cons c rest ih =>
    have hc : InsideWindows c.1 st := hw c (List.mem_cons_self _ _)
    have hstep : recordCost c.1 c.2 st =
        { st with dailySpendUsd := st.dailySpendUsd + c.2,
                  hourlyCallCount := st.hourlyCallCount + 1 } :=
      recordCost_inside c.2 hc
    have hrest : ∀ d ∈ rest, InsideWindows d.1
        { st with dailySpendUsd := st.dailySpendUsd + c.2,
                  hourlyCallCount := st.hourlyCallCount + 1 } := by
      intro d hd
      exact hw d (List.mem_cons_of_mem _ hd)
    have hfold : recordAll (c :: rest) st = recordAll rest (recordCost c.1 c.2 st) := rfl
    rw [hfold, hstep]
    obtain ⟨ih1, ih2, ih3, ih4, ih5⟩ := ih _ hrest
    refine ⟨by rw [ih1]; simp; ring, by rw [ih2]; simp; omega, ih3, ih4, ?_⟩
    intro hn
    have h0 : 0 ≤ c.2 := hn c (List.mem_cons_self _ _)
    have h5 := ih5 (fun d hd => hn d (List.mem_cons_of_mem _ hd))
    simp only at h5
    calc st.dailySpendUsd ≤ st.dailySpendUsd + c.2 := by linarith
    _ ≤ _ := h5

/-- Claim C7: each counter resets exactly once per window boundary and never
before it, the reset being evaluated lazily at the start of every
`checkBudget`/`recordCost` call: a call inside the current window leaves
the counter and its marker untouched; the first call after a boundary
zeroes the counter and moves the marker; a follow-up call inside the new
window observes no further reset; and both entry points route the state
through `maybeResetCounters`. -/
theorem c7_window_reset (cfg : McpServerConfig) (now now2 : Instant) (est c : ℚ)
    (st : BudgetState) :
    (now.dateUTC = st.lastResetDate →
      (maybeResetCounters now st).dailySpendUsd = st.dailySpendUsd
      ∧ (maybeResetCounters now st).lastResetDate = st.lastResetDate)
    ∧ (now.millis - st.lastHourlyReset < hourInMs →
      (maybeResetCounters now st).hourlyCallCount = st.hourlyCallCount
      ∧ (maybeResetCounters now st).lastHourlyReset = st.lastHourlyReset)
    ∧ (now.dateUTC ≠ st.lastResetDate →
      (maybeResetCounters now st).dailySpendUsd = 0
      ∧ (maybeResetCounters now st).lastResetDate = now.dateUTC)
    ∧ (now.millis - st.lastHourlyReset ≥ hourInMs →
      (maybeResetCounters now st).hourlyCallCount = 0
      ∧ (maybeResetCounters now st).lastHourlyReset = now.millis)
    ∧ (now2.dateUTC = now.dateUTC →
      (maybeResetCounters now2 (maybeResetCounters now st)).dailySpendUsd
        = (maybeResetCounters now st).dailySpendUsd)
    ∧ (now.millis - st.lastHourlyReset ≥ hourInMs → now2.millis - now.millis < hourInMs →
      (maybeResetCounters now2 (maybeResetCounters now st)).hourlyCallCount
        = (maybeResetCounters now st).hourlyCallCount)
    ∧ (checkBudget cfg now est st).2 = maybeResetCounters now st
    ∧ recordCost now c st =
        { maybeResetCounters now st with
          dailySpendUsd := (maybeResetCounters now st).dailySpendUsd + c,
          hourlyCallCount := (maybeResetCounters now st).hourlyCallCount + 1 } := by
  refine ⟨?_, ?_, ?_, ?_, ?_, ?_, ?_, ?_⟩
  · intro h
    rw [maybeReset_dailySpend, maybeReset_lastResetDate, if_neg (by simp [h]), h]
    exact ⟨rfl, rfl⟩
  · intro h
    rw [maybeReset_hourlyCount, maybeReset_lastHourly, shouldResetHourly_eq_false h]
    simp
  · intro h
    rw [maybeReset_dailySpend, maybeReset_lastResetDate,
      if_pos (fun hx => h hx.symm)]
    exact ⟨rfl, rfl⟩
  · intro h
    rw [maybeReset_hourlyCount, maybeReset_lastHourly, shouldResetHourly_eq_true h]
    simp
  · intro h
    rw [maybeReset_dailySpend now2, maybeReset_lastResetDate,
      if_neg (by simp [h])]
  · intro h h2
    have hm : (maybeResetCounters now st).lastHourlyReset = now.millis := by
      rw [maybeReset_lastHourly, shouldResetHourly_eq_true h]
      rfl
    rw [maybeReset_hourlyCount now2,
      shouldResetHourly_eq_false (by rw [hm]; omega)]
    rfl
  · unfold checkBudget
    by_cases h1 : (maybeResetCounters now st).hourlyCallCount ≥ cfg.maxCallsPerHour <;>
      by_cases h2 : (maybeResetCounters now st).dailySpendUsd + est > cfg.maxDailyCostUsd <;>
      by_cases h3 : est > cfg.maxSingleCallCostUsd <;>
      simp [h1, h2, h3]
  · rfl

/-- Witness for C6 at a concrete two-call sequence inside one window. -/
theorem c6_witness :
    (recordAll [(⟨"2026-01-01", 10⟩, 1), (⟨"2026-01-01", 20⟩, 2)]
        ⟨5, 3, "2026-01-01", 0⟩).dailySpendUsd
      = (5 : ℚ) + (([((⟨"2026-01-01", 10⟩ : Instant), (1 : ℚ)),
          (⟨"2026-01-01", 20⟩, 2)]).map (fun c => c.2)).sum
    ∧ (recordAll [(⟨"2026-01-01", 10⟩, 1), (⟨"2026-01-01", 20⟩, 2)]
        ⟨5, 3, "2026-01-01", 0⟩).hourlyCallCount = 3 + 2 :=
  let h := c6_recordCost_window
    [(⟨"2026-01-01", 10⟩, 1), (⟨"2026-01-01", 20⟩, 2)] ⟨5, 3, "2026-01-01", 0⟩
    (by decide)
  ⟨h.1, h.2.1⟩

/-- Witness for C7: a call after a daily boundary zeroes the daily spend
and moves the marker. -/
theorem c7_witness :
    (maybeResetCounters ⟨"2026-01-02", 0⟩ ⟨5, 3, "2026-01-01", 0⟩).dailySpendUsd = 0
    ∧ (maybeResetCounters ⟨"2026-01-02", 0⟩
        ⟨5, 3, "2026-01-01", 0⟩).lastResetDate = "2026-01-02" :=
  (c7_window_reset DEFAULT_CONFIG ⟨"2026-01-02", 0⟩ ⟨"2026-01-02", 1⟩ 0 0
    ⟨5, 3, "2026-01-01", 0⟩).2.2.1 (by decide)

/-- Claim C10: the run-history list operation returns at most
min(limit, 50) records, always a front slice (most recent first) of the
store, hence never more than the 50 most recent; `addRun` keeps the newest
record at the front and retains at most 100 records. -/
theorem c10_recent_runs_cap (limit : ℕ) (runs : List RunRecord) :
    (getRecentRuns limit runs).length ≤ min limit 50
    ∧ (getRecentRuns limit runs).length ≤ 50
    ∧ (∃ t, runs = getRecentRuns limit runs ++ t)
    ∧ (∀ (r : RunRecord) (rs : List RunRecord),
        rs.length ≤ MAX_RUNS → (addRun r rs).length ≤ MAX_RUNS)
    ∧ (∀ (r : RunRecord) (rs : List RunRecord), (addRun r rs).head? = some r) := by
  refine ⟨?_, ?_, ?_, ?_, ?_⟩
  · calc (getRecentRuns limit runs).length = min (min limit 50) runs.length := by
          simp [getRecentRuns]
    _ ≤ min limit 50 := Nat.min_le_left _ _
  · calc (getRecentRuns limit runs).length = min (min limit 50) runs.length := by
          simp [getRecentRuns]
    _ ≤ min limit 50 := Nat.min_le_left _ _
    _ ≤ 50 := Nat.min_le_right _ _
  · exact ⟨runs.drop (min limit 50), (List.take_append_drop _ runs).symm⟩
  · intro r rs h
    simp only [addRun]
    split
    · simp only [List.length_take]
      exact Nat.min_le_left MAX_RUNS (r :: rs).length
    · next hlen => exact Nat.not_lt.mp (by simpa using hlen)
  · intro r rs
    simp only [addRun]
    split
    · simp [MAX_RUNS]
    · rfl

/-! ## Soundness and completeness of the validation-path DFS -/

theorem DepPath.trans {steps : List WStep} {a b c : String} :
    DepPath steps a b → DepPath steps b c → DepPath steps a c := by
  intro h1 h2
  induction h1 with
  | single e => exact .cons e h2
  | cons e _ ih => exact .cons e (ih h2)

theorem depsOf_sub_allNames {steps : List WStep} {n d : String}
    (h : d ∈ depsOf steps n) : d ∈ allNames steps := by
  unfold depsOf at h
  rcases hf : findStep steps n with _ | s
  · rw [hf] at h; simp at h
  · rw [hf] at h
    have hs : s ∈ steps := List.mem_of_find?_eq_some hf
    unfold allNames
    rw [List.mem_dedup]
    exact List.mem_append_right _ (List.mem_flatMap.mpr ⟨s, hs, h⟩)

theorem depsOf_name_mem {steps : List WStep} {n d : String}
    (h : d ∈ depsOf steps n) : ∃ s ∈ steps, s.name = n := by
  unfold depsOf at h
  rcases hf : findStep steps n with _ | s
  · rw [hf] at h; simp at h
  · refine ⟨s, List.mem_of_find?_eq_some hf, ?_⟩
    have := List.find?_some hf
    simpa using this

theorem name_mem_allNames {steps : List WStep} {s : WStep} (hs : s ∈ steps) :
    s.name ∈ allNames steps := by
  unfold allNames
  rw [List.mem_dedup]
  exact List.mem_append_left _ (List.mem_map_of_mem _ hs)

theorem allNames_lt_sortFuel (steps : List WStep) :
    (allNames steps).length < sortFuel steps := by
  unfold allNames sortFuel
  have h1 : ((steps.map (fun s => s.name) ++
      steps.flatMap (fun s => s.dependsList)).dedup).length ≤
      (steps.map (fun s => s.name) ++ steps.flatMap (fun s => s.dependsList)).length :=
    (List.dedup_sublist _).length_le
  have h2 : (steps.flatMap (fun s => s.dependsList)).length =
      (steps.map (fun s => s.dependsList.length)).sum := by
    simp only [List.length_flatMap]
    congr 1
  simp only [List.length_append, List.length_map] at h1
  omega

/-- The initial DFS state satisfies the invariant. -/
theorem VInv.initial (steps : List WStep) : VInv steps ⟨[], [], []⟩ := by
  constructor <;> simp [OrderOK]

/-- Walking down the in-progress stack from a member yields a dependency
path to the stack head (or the member is the head). -/
theorem stack_path {steps : List WStep} :
    ∀ {t : List String} {h name : String}, StackChain steps (h :: t) →
      name ∈ h :: t → name = h ∨ DepPath steps name h := by
  intro t
  induction t with
  | nil =>
    intro h name _ hm
    simp at hm
    exact Or.inl hm
  | cons h2 t ih =>
    intro h name hch hm
    rcases List.mem_cons.mp hm with he | hm2
    · exact Or.inl he
    · have hch2 : StackChain steps (h2 :: t) := (List.chain'_cons.mp hch).2
      have hedge : DepEdge steps h2 h := (List.chain'_cons.mp hch).1
      rcases ih hch2 hm2 with he2 | hp
      · exact Or.inr (he2 ▸ DepPath.single hedge)
      · exact Or.inr (hp.trans (DepPath.single hedge))

/-- Induction step for the dependency loop: if every single visit at this
fuel satisfies the master conclusions, so does visiting a list of
dependencies. -/
theorem visitAll_master (steps : List WStep) (fuel : ℕ)
    (IH : ∀ (name : String) (st : VState), VInv steps st → name ∈ allNames steps →
      (∀ h t, st.visiting = h :: t → DepEdge steps h name) →
      StackChain steps st.visiting →
      (((allNames steps).length < fuel + st.visiting.length →
          visitV steps fuel name st ≠ .out)
        ∧ (∀ st', visitV steps fuel name st = .ok st' →
            VInv steps st' ∧ st'.visiting = st.visiting
            ∧ (∃ gr, st'.order = st.order ++ gr) ∧ name ∈ st'.order)
        ∧ (∀ w, visitV steps fuel name st = .cyc w → HasCycle steps))) :
    ∀ (ds : List String) (st : VState), VInv steps st →
      (∀ d ∈ ds, d ∈ allNames steps) →
      (∀ d ∈ ds, ∀ h t, st.visiting = h :: t → DepEdge steps h d) →
      StackChain steps st.visiting →
      (((allNames steps).length < fuel + st.visiting.length →
          visitAllWith (visitV steps fuel) ds st ≠ .out)
        ∧ (∀ st', visitAllWith (visitV steps fuel) ds st = .ok st' →
            VInv steps st' ∧ st'.visiting = st.visiting
            ∧ (∃ gr, st'.order = st.order ++ gr) ∧ ∀ d ∈ ds, d ∈ st'.order)
        ∧ (∀ w, visitAllWith (visitV steps fuel) ds st = .cyc w → HasCycle steps)) := by
  intro ds
  induction ds with
  | nil =>
    intro st hinv _ _ _
    refine ⟨fun _ => by simp [visitAllWith], ?_, ?_⟩
    · intro st' h
      simp only [visitAllWith, VRes.ok.injEq] at h
      subst h
      exact ⟨hinv, rfl, ⟨[], by simp⟩, by simp⟩
    · intro w h; simp [visitAllWith] at h
  | cons d ds ihds =>
    intro st hinv hsub hch hstack
    have hd := IH d st hinv (hsub d (by simp))
      (fun h t ht => hch d (by simp) h t ht) hstack
    rcases hres : visitV steps fuel d st with st1 | w
    · have hprops := hd.2.1 st1 hres
      obtain ⟨hinv1, hvis1, ⟨gr1, hord1⟩, hdord⟩ := hprops
      have hrest := ihds st1 hinv1 (fun x hx => hsub x (List.mem_cons_of_mem _ hx))
        (fun x hx h t ht => hch x (List.mem_cons_of_mem _ hx) h t (hvis1 ▸ ht))
        (by rw [hvis1]; exact hstack)
      refine ⟨?_, ?_, ?_⟩
      · intro hlt
        have := hrest.1 (by rw [hvis1]; exact hlt)
        simpa [visitAllWith, hres] using this
      · intro st' h
        simp only [visitAllWith, hres] at h
        obtain ⟨hinv', hvis', ⟨gr2, hord2⟩, hall⟩ := hrest.2.1 st' h
        refine ⟨hinv', by rw [hvis', hvis1], ⟨gr1 ++ gr2, by
          rw [hord2, hord1, List.append_assoc]⟩, ?_⟩
        intro x hx
        rcases List.mem_cons.mp hx with he | hm
        · subst he
          rw [hord2]
          exact List.mem_append_left _ hdord
        · exact hall x hm
      · intro w h
        simp only [visitAllWith, hres] at h
        exact hrest.2.2 w h
    · refine ⟨fun _ => by simp [visitAllWith, hres], ?_, ?_⟩
      · intro st' h; simp [visitAllWith, hres] at h
      · intro w' h
        simp only [visitAllWith, hres] at h
        exact hd.2.2 w hres
    · refine ⟨?_, ?_, ?_⟩
      · intro hlt
        exact absurd hres (hd.1 hlt)
      · intro st' h; simp [visitAllWith, hres] at h
      · intro w h; simp [visitAllWith, hres] at h

/-- The master lemma of the validation-path DFS: with the invariant and the
stack chain in force, a visit never exhausts well-chosen fuel, a
successful visit restores the stack, extends the sound duplicate-free
order and orders the visited name, and a cycle report implies a real
dependency cycle. -/
theorem visitV_master (steps : List WStep) :
    ∀ (fuel : ℕ) (name : String) (st : VState), VInv steps st →
      name ∈ allNames steps →
      (∀ h t, st.visiting = h :: t → DepEdge steps h name) →
      StackChain steps st.visiting →
      (((allNames steps).length < fuel + st.visiting.length →
          visitV steps fuel name st ≠ .out)
        ∧ (∀ st', visitV steps fuel name st = .ok st' →
            VInv steps st' ∧ st'.visiting = st.visiting
            ∧ (∃ gr, st'.order = st.order ++ gr) ∧ name ∈ st'.order)
        ∧ (∀ w, visitV steps fuel name st = .cyc w → HasCycle steps)) := by
  intro fuel
  induction fuel with
  | zero =>
    intro name st hinv _ _ _
    refine ⟨?_, ?_, ?_⟩
    · intro hlt
      exfalso
      have hsub : st.visiting ⊆ allNames steps := fun x hx => hinv.visiting_sub x hx
      have := (List.subperm_of_subset hinv.visiting_nodup hsub).length_le
      omega
    · intro st' h; simp [visitV] at h
    · intro w h; simp [visitV] at h
  | succ fuel ih =>
    intro name st hinv hname hch hstack
    by_cases hv : name ∈ st.visited
    · refine ⟨fun _ => by simp [visitV, hv], ?_, ?_⟩
      · intro st' h
        simp only [visitV, if_pos hv, VRes.ok.injEq] at h
        subst h
        exact ⟨hinv, rfl, ⟨[], by simp⟩, (hinv.visited_iff name).mp hv⟩
      · intro w h; simp [visitV, hv] at h
    · by_cases hvg : name ∈ st.visiting
      · refine ⟨fun _ => by simp [visitV, hv, hvg], ?_, ?_⟩
        · intro st' h; simp [visitV, hv, hvg] at h
        · intro w h
          rcases hcase : st.visiting with _ | ⟨h0, t⟩
          · rw [hcase] at hvg; simp at hvg
          · have hedge : DepEdge steps h0 name := hch h0 t hcase
            have hmem : name ∈ h0 :: t := hcase ▸ hvg
            have hstack2 : StackChain steps (h0 :: t) := hcase ▸ hstack
            rcases stack_path hstack2 hmem with he | hp
            · exact ⟨name, .single (he ▸ hedge)⟩
            · exact ⟨name, hp.trans (.single hedge)⟩
      · -- new name: stack it, visit its dependencies
        have hnotord : name ∉ st.order := fun hmem =>
          hv ((hinv.visited_iff name).mpr hmem)
        have hinv1 : VInv steps { st with visiting := name :: st.visiting } := by
          refine ⟨hinv.order_nodup, hinv.visited_iff, ?_, hinv.order_ok,
            hinv.order_sub, ?_, ?_⟩
          · intro n hn
            simp only [List.mem_cons, not_or]
            exact ⟨fun he => hnotord (he ▸ hn), hinv.order_disj n hn⟩
          · exact List.nodup_cons.mpr ⟨hvg, hinv.visiting_nodup⟩
          · intro n hn
            rcases List.mem_cons.mp hn with he | hm
            · exact he ▸ hname
            · exact hinv.visiting_sub n hm
        have hstack1 : StackChain steps (name :: st.visiting) := by
          rcases hcase : st.visiting with _ | ⟨h0, t⟩
          · simp [StackChain]
          · exact List.chain'_cons.mpr ⟨hch h0 t hcase, hcase ▸ hstack⟩
        have hlist := visitAll_master steps fuel ih (depsOf steps name)
          { st with visiting := name :: st.visiting } hinv1
          (fun d hd => depsOf_sub_allNames hd)
          (fun d hd h t ht => by
            simp only [VState.mk.injEq] at ht
            have hh : h = name := by
              have := congrArg List.head? ht
              simpa using this.symm
            exact hh ▸ hd)
          hstack1
        rcases hres : visitAllWith (visitV steps fuel) (depsOf steps name)
            { st with visiting := name :: st.visiting } with st2 | w
        · obtain ⟨hinv2, hvis2, ⟨gr, hord2⟩, hdall⟩ := hlist.2.1 st2 hres
          have hnotord2 : name ∉ st2.order := by
            intro hmem
            exact (hinv2.order_disj name hmem) (by rw [hvis2]; simp)
          refine ⟨fun _ => by simp [visitV, hv, hvg, hres], ?_, ?_⟩
          · intro st' h
            simp only [visitV, if_neg hv, if_neg hvg, hres, VRes.ok.injEq] at h
            subst h
            refine ⟨?_, ?_, ?_, ?_⟩
            · refine ⟨?_, ?_, ?_, ?_, ?_, ?_, ?_⟩
              · simp only [List.nodup_append, List.nodup_cons]
                exact ⟨hinv2.order_nodup, by simp, by simpa using hnotord2⟩
              · intro n
                have hvi := hinv2.visited_iff n
                simp only [List.mem_cons, List.mem_append, List.mem_singleton]
                tauto
              · intro n hn
                rw [hvis2, List.erase_cons_head]
                rcases List.mem_append.mp hn with hm | he
                · have := hinv2.order_disj n hm
                  rw [hvis2] at this
                  simp only [List.mem_cons, not_or] at this
                  exact this.2
                · have he2 : n = name := by simpa using he
                  exact he2 ▸ hvg
              · intro n hn m hm
                rcases List.mem_append.mp hn with hm2 | he
                · obtain ⟨hmm, hlt⟩ := hinv2.order_ok n hm2 m hm
                  refine ⟨List.mem_append_left _ hmm, ?_⟩
                  rw [List.indexOf_append_of_mem hmm, List.indexOf_append_of_mem hm2]
                  exact hlt
                · have he2 : n = name := by simpa using he
                  subst he2
                  have hmm : m ∈ st2.order := hdall m hm
                  refine ⟨List.mem_append_left _ hmm, ?_⟩
                  rw [List.indexOf_append_of_mem hmm,
                    List.indexOf_append_of_not_mem hnotord2]
                  have := List.indexOf_lt_length.mpr hmm
                  omega
              · intro n hn
                rcases List.mem_append.mp hn with hm | he
                · exact hinv2.order_sub n hm
                · exact (by simpa using he : n = name) ▸ hname
              · rw [hvis2, List.erase_cons_head]
                exact hinv.visiting_nodup
              · rw [hvis2, List.erase_cons_head]
                exact hinv.visiting_sub
            · rw [hvis2, List.erase_cons_head]
            · exact ⟨gr ++ [name], by
                rw [hord2]
                simp [List.append_assoc]⟩
            · simp
          · intro w h
            simp [visitV, hv, hvg, hres] at h
        · refine ⟨fun _ => by simp [visitV, hv, hvg, hres], ?_, ?_⟩
          · intro st' h; simp [visitV, hv, hvg, hres] at h
          · intro w' h
            exact hlist.2.2 w hres
        · refine ⟨?_, ?_, ?_⟩
          · intro hlt
            exfalso
            refine hlist.1 ?_ hres
            simp only [List.length_cons]
            omega
          · intro st' h; simp [visitV, hv, hvg, hres] at h
          · intro w h; simp [visitV, hv, hvg, hres] at h

/-- Top-level loop lemma for the validation sort: from an empty stack, the
loop never exhausts the fuel bound, success preserves the invariant and
orders every processed step's name, and a cycle report implies a real
cycle. -/
theorem topoLoopV_master (steps : List WStep) (fuel : ℕ) :
    ∀ (ss : List WStep) (st : VState), VInv steps st → st.visiting = [] →
      (∀ s ∈ ss, s.name ∈ allNames steps) →
      (((allNames steps).length < fuel → topoLoopV steps fuel ss st ≠ .out)
        ∧ (∀ st', topoLoopV steps fuel ss st = .ok st' →
            VInv steps st' ∧ st'.visiting = []
            ∧ (∃ gr, st'.order = st.order ++ gr) ∧ ∀ s ∈ ss, s.name ∈ st'.order)
        ∧ (∀ w, topoLoopV steps fuel ss st = .cyc w → HasCycle steps)) := by
  intro ss
  induction ss with
  | nil =>
    intro st hinv hemp _
    refine ⟨fun _ => by simp [topoLoopV], ?_, ?_⟩
    · intro st' h
      simp only [topoLoopV, VRes.ok.injEq] at h
      subst h
      exact ⟨hinv, hemp, ⟨[], by simp⟩, by simp⟩
    · intro w h; simp [topoLoopV] at h
  | cons s ss ihss =>
    intro st hinv hemp hsub
    have hs := visitV_master steps fuel s.name st hinv (hsub s (by simp))
      (fun h t ht => by rw [hemp] at ht; cases ht)
      (by rw [hemp]; simp [StackChain])
    rcases hres : visitV steps fuel s.name st with st1 | w
    · obtain ⟨hinv1, hvis1, ⟨gr1, hord1⟩, hnord⟩ := hs.2.1 st1 hres
      have hrest := ihss st1 hinv1 (by rw [hvis1]; exact hemp)
        (fun x hx => hsub x (List.mem_cons_of_mem _ hx))
      refine ⟨?_, ?_, ?_⟩
      · intro hlt
        have := hrest.1 hlt
        simpa [topoLoopV, hres] using this
      · intro st' h
        simp only [topoLoopV, hres] at h
        obtain ⟨hinv', hvis', ⟨gr2, hord2⟩, hall⟩ := hrest.2.1 st' h
        refine ⟨hinv', hvis', ⟨gr1 ++ gr2, by rw [hord2, hord1, List.append_assoc]⟩, ?_⟩
        intro x hx
        rcases List.mem_cons.mp hx with he | hm
        · subst he
          rw [hord2]
          exact List.mem_append_left _ hnord
        · exact hall x hm
      · intro w h
        simp only [topoLoopV, hres] at h
        exact hrest.2.2 w h
    · refine ⟨fun _ => by simp [topoLoopV, hres], ?_, ?_⟩
      · intro st' h; simp [topoLoopV, hres] at h
      · intro w' h
        exact hs.2.2 w hres
    · refine ⟨?_, ?_, ?_⟩
      · intro hlt
        refine fun _ => absurd hres (hs.1 ?_)
        rw [hemp]
        simpa using hlt
      · intro st' h; simp [topoLoopV, hres] at h
      · intro w h; simp [topoLoopV, hres] at h

/-- In a sound complete order, dependency paths strictly decrease the
index. -/
theorem DepPath.indexOf_lt {steps : List WStep} {order : List String}
    (hok : OrderOK steps order) :
    ∀ {a b : String}, DepPath steps a b → a ∈ order →
      b ∈ order ∧ order.indexOf b < order.indexOf a := by
  intro a b hp
  induction hp with
  | single e =>
    intro ha
    exact hok _ ha _ e
  | cons e _ ih =>
    intro ha
    obtain ⟨hx, hlt⟩ := hok _ ha _ e
    obtain ⟨hb, hlt2⟩ := ih hx
    exact ⟨hb, hlt2.trans hlt⟩

/-- A sound complete order rules out dependency cycles. -/
theorem no_cycle_of_orderOK {steps : List WStep} {order : List String}
    (hok : OrderOK steps order) (hall : ∀ s ∈ steps, s.name ∈ order) :
    ¬ HasCycle steps := by
  rintro ⟨n, hp⟩
  have hn : n ∈ order := by
    rcases hp with e | @⟨_, x, _, e, _⟩
    all_goals
      obtain ⟨s, hs, hname⟩ := depsOf_name_mem e
      exact hname ▸ hall s hs
  obtain ⟨-, hlt⟩ := DepPath.indexOf_lt hok hp hn
  omega

/-- The bundle of facts about a successful validation sort. -/
theorem topologicalSortV_success (steps : List WStep)
    (h : (topologicalSortV steps).hasCycle = false) :
    (topologicalSortV steps).order.Nodup
    ∧ OrderOK steps (topologicalSortV steps).order
    ∧ (∀ s ∈ steps, s.name ∈ (topologicalSortV steps).order)
    ∧ (∀ n ∈ (topologicalSortV steps).order, n ∈ allNames steps)
    ∧ (topologicalSortV steps).cycleStep = none := by
  have hloop := topoLoopV_master steps (sortFuel steps) steps ⟨[], [], []⟩
    (VInv.initial steps) rfl (fun s hs => name_mem_allNames hs)
  unfold topologicalSortV at h ⊢
  rcases hres : topoLoopV steps (sortFuel steps) steps ⟨[], [], []⟩ with st' | w
  · obtain ⟨hinv', -, -, hall⟩ := hloop.2.1 st' hres
    exact ⟨hinv'.order_nodup, hinv'.order_ok, hall, hinv'.order_sub, rfl⟩
  · rw [hres] at h; simp at h
  · rw [hres] at h; simp at h

/-- Claim C9's completeness direction: a dependency cycle always surfaces
as `hasCycle`. -/
theorem hasCycle_complete {steps : List WStep} (hc : HasCycle steps) :
    (topologicalSortV steps).hasCycle = true := by
  by_contra h
  have h2 : (topologicalSortV steps).hasCycle = false := by
    simpa using h
  obtain ⟨-, hok, hall, -, -⟩ := topologicalSortV_success steps h2
  exact no_cycle_of_orderOK hok hall hc

/-- Conversely, a reported cycle is a real one (the fuel artifact being
unreachable). -/
theorem hasCycle_sound {steps : List WStep}
    (h : (topologicalSortV steps).hasCycle = true) : HasCycle steps := by
  have hloop := topoLoopV_master steps (sortFuel steps) steps ⟨[], [], []⟩
    (VInv.initial steps) rfl (fun s hs => name_mem_allNames hs)
  unfold topologicalSortV at h
  rcases hres : topoLoopV steps (sortFuel steps) steps ⟨[], [], []⟩ with st' | w
  · rw [hres] at h; simp at h
  · exact hloop.2.2 w hres
  · exact absurd hres (hloop.1 (allNames_lt_sortFuel steps))

/-- A reported cycle always carries a witness name. -/
theorem cycleStep_isSome {steps : List WStep}
    (h : (topologicalSortV steps).hasCycle = true) :
    ∃ w, (topologicalSortV steps).cycleStep = some w := by
  have hloop := topoLoopV_master steps (sortFuel steps) steps ⟨[], [], []⟩
    (VInv.initial steps) rfl (fun s hs => name_mem_allNames hs)
  unfold topologicalSortV at h ⊢
  rcases hres : topoLoopV steps (sortFuel steps) steps ⟨[], [], []⟩ with st' | w
  · rw [hres] at h; simp at h
  · exact ⟨w, rfl⟩
  · exact absurd hres (hloop.1 (allNames_lt_sortFuel steps))

/-- On cycle the validation sort discards any partial order. -/
theorem cycle_order_empty {steps : List WStep}
    (h : (topologicalSortV steps).hasCycle = true) :
    (topologicalSortV steps).order = [] := by
  unfold topologicalSortV at h ⊢
  rcases hres : topoLoopV steps (sortFuel steps) steps ⟨[], [], []⟩ with st' | w
  · rw [hres] at h; simp at h
  · rfl
  · rfl

/-! ## Agreement of the execution-path and validation-path sorts -/

/-- Unique step names make the name projection injective on the list. -/
theorem name_inj {steps : List WStep} (hu : (steps.map (fun s => s.name)).Nodup) :
    ∀ {s t : WStep}, s ∈ steps → t ∈ steps → s.name = t.name → s = t := by
  induction steps with
  | nil => intro s t hs; simp at hs
  | cons a l ih =>
    intro s t hs ht h
    simp only [List.map_cons, List.nodup_cons] at hu
    rcases List.mem_cons.mp hs with hsa | hsl <;>
      rcases List.mem_cons.mp ht with hta | htl
    · rw [hsa, hta]
    · subst hsa
      refine absurd ?_ hu.1
      rw [h]
      exact List.mem_map_of_mem (fun s => s.name) htl
    · subst hta
      refine absurd ?_ hu.1
      rw [← h]
      exact List.mem_map_of_mem (fun s => s.name) hsl
    · exact ih hu.2 hsl htl h

/-- With unique names the execution path's last-wins map lookup and the
validation path's first-match `find` agree. -/
theorem stepMapGet_eq_findStep {steps : List WStep}
    (hu : (steps.map (fun s => s.name)).Nodup) (n : String) :
    stepMapGet steps n = findStep steps n := by
  induction steps with
  | nil => rfl
  | cons a l ih =>
    simp only [List.map_cons, List.nodup_cons] at hu
    unfold stepMapGet findStep
    simp only [List.reverse_cons, List.find?_append]
    by_cases he : a.name = n
    · have hnone : (l.reverse.find? (fun s => s.name == n)) = none := by
        rw [List.find?_eq_none]
        intro x hx
        simp only [beq_iff_eq]
        intro hxn
        exact hu.1 (he ▸ hxn ▸ List.mem_map_of_mem (fun s => s.name)
          (List.mem_reverse.mp hx))
      rw [hnone]
      simp [List.find?_cons, he]
    · have hbeq : (a.name == n) = false := by simp [he]
      have hstep : (List.find? (fun s => s.name == n) [a]) = none := by
        simp [List.find?, hbeq]
      rw [hstep]
      have := ih hu.2
      unfold stepMapGet findStep at this
      rw [Option.or_none, this]
      simp [List.find?_cons, he]

/-- With unique names each step is recovered by looking up its own name. -/
theorem stepMapGet_self {steps : List WStep}
    (hu : (steps.map (fun s => s.name)).Nodup) {s : WStep} (hs : s ∈ steps) :
    stepMapGet steps s.name = some s := by
  rw [stepMapGet_eq_findStep hu]
  rcases hf : findStep steps s.name with _ | t
  · exfalso
    have := List.find?_eq_none.mp hf s hs
    simp at this
  · have ht : t ∈ steps := List.mem_of_find?_eq_some hf
    have htn : t.name = s.name := by simpa using List.find?_some hf
    rw [name_inj hu ht hs htn]

/-- `depsOf` through a unique-name lookup is the step's own depends
list. -/
theorem depsOf_self {steps : List WStep}
    (hu : (steps.map (fun s => s.name)).Nodup) {s : WStep} (hs : s ∈ steps) :
    depsOf steps s.name = s.dependsList := by
  unfold depsOf
  rw [← stepMapGet_eq_findStep hu, stepMapGet_self hu hs]

/-- Bisimulation of the dependency loops at a fixed fuel. -/
theorem visitAllE_bisim (steps : List WStep) (fuel : ℕ)
    (IH : ∀ (name : String) (se : EState) (sv : VState), EVMatch steps se sv →
      (name ∈ steps.map (fun s => s.name) ∨ name ∈ se.visited) →
      ERelV steps (visitE steps fuel name se) (visitV steps fuel name sv)) :
    ∀ (ds : List String) (se : EState) (sv : VState), EVMatch steps se sv →
      (∀ d ∈ ds, d ∈ steps.map (fun s => s.name)) →
      ERelV steps (visitAllWithE (visitE steps fuel) ds se)
        (visitAllWith (visitV steps fuel) ds sv) := by
  intro ds
  induction ds with
  | nil =>
    intro se sv hm _
    exact hm
  | cons d ds ihds =>
    intro se sv hm hsub
    have hd := IH d se sv hm (Or.inl (hsub d (by simp)))
    cases hrE : visitE steps fuel d se with
    | ok se1 =>
      cases hrV : visitV steps fuel d sv with
      | ok sv1 =>
        rw [hrE, hrV] at hd
        have hnext := ihds se1 sv1 hd (fun x hx => hsub x (List.mem_cons_of_mem _ hx))
        simpa only [visitAllWithE, visitAllWith, hrE, hrV] using hnext
      | cyc w => rw [hrE, hrV] at hd; exact False.elim hd
      | out => rw [hrE, hrV] at hd; exact False.elim hd
    | err e =>
      cases hrV : visitV steps fuel d sv with
      | ok sv1 => rw [hrE, hrV] at hd; cases e <;> exact False.elim hd
      | cyc w =>
        rw [hrE, hrV] at hd
        simpa only [visitAllWithE, visitAllWith, hrE, hrV] using hd
      | out =>
        rw [hrE, hrV] at hd
        simpa only [visitAllWithE, visitAllWith, hrE, hrV] using hd

/-- The two `visit`s are bisimilar on step lists with unique names and
resolvable dependencies. -/
theorem visitE_bisim (steps : List WStep)
    (hu : (steps.map (fun s => s.name)).Nodup)
    (hc : ∀ s ∈ steps, ∀ d ∈ s.dependsList, d ∈ steps.map (fun s => s.name)) :
    ∀ (fuel : ℕ) (name : String) (se : EState) (sv : VState), EVMatch steps se sv →
      (name ∈ steps.map (fun s => s.name) ∨ name ∈ se.visited) →
      ERelV steps (visitE steps fuel name se) (visitV steps fuel name sv) := by
  intro fuel
  induction fuel with
  | zero =>
    intro name se sv _ _
    exact trivial
  | succ fuel ih =>
    intro name se sv hm hmem
    obtain ⟨hord, hvd, hvg, hcoh⟩ := hm
    by_cases hv : name ∈ se.visited
    · have hv2 : name ∈ sv.visited := hvd ▸ hv
      simp only [visitE, visitV, if_pos hv, if_pos hv2]
      exact ⟨hord, hvd, hvg, hcoh⟩
    · have hv2 : name ∉ sv.visited := fun hx => hv (hvd ▸ hx)
      by_cases hg : name ∈ se.visiting
      · have hg2 : name ∈ sv.visiting := hvg ▸ hg
        simp only [visitE, visitV, if_neg hv, if_neg hv2, if_pos hg, if_pos hg2]
        exact rfl
      · have hg2 : name ∉ sv.visiting := fun hx => hg (hvg ▸ hx)
        have hname : name ∈ steps.map (fun s => s.name) := by
          rcases hmem with h | h
          · exact h
          · exact absurd h hv
        obtain ⟨s, hs, hsn⟩ := List.mem_map.mp hname
        have hget : stepMapGet steps name = some s := hsn ▸ stepMapGet_self hu hs
        have hdeps : depsOf steps name = s.dependsList := hsn ▸ depsOf_self hu hs
        have hm1 : EVMatch steps
            { se with visiting := name :: se.visiting }
            { sv with visiting := name :: sv.visiting } :=
          ⟨hord, hvd, by rw [hvg], hcoh⟩
        have hlist := visitAllE_bisim steps fuel ih s.dependsList
          { se with visiting := name :: se.visiting }
          { sv with visiting := name :: sv.visiting } hm1
          (fun d hd => hc s hs d hd)
        simp only [visitE, visitV, if_neg hv, if_neg hv2, if_neg hg, if_neg hg2,
          hget, hdeps]
        cases hrE : visitAllWithE (visitE steps fuel) s.dependsList
            { se with visiting := name :: se.visiting } with
        | ok se2 =>
          cases hrV : visitAllWith (visitV steps fuel) s.dependsList
              { sv with visiting := name :: sv.visiting } with
          | ok sv2 =>
            rw [hrE, hrV] at hlist
            obtain ⟨hord2, hvd2, hvg2, hcoh2⟩ := hlist
            refine ⟨?_, ?_, ?_, ?_⟩
            · simp [hord2, hsn]
            · rw [hvd2]
            · rw [hvg2]
            · intro t ht
              rcases List.mem_append.mp ht with h1 | h2
              · exact hcoh2 t h1
              · have ht2 : t = s := by simpa using h2
                rw [ht2, hsn]
                exact hget
          | cyc w => rw [hrE, hrV] at hlist; exact False.elim hlist
          | out => rw [hrE, hrV] at hlist; exact False.elim hlist
        | err e =>
          cases hrV : visitAllWith (visitV steps fuel) s.dependsList
              { sv with visiting := name :: sv.visiting } with
          | ok sv2 => rw [hrE, hrV] at hlist; cases e <;> exact False.elim hlist
          | cyc w =>
            rw [hrE, hrV] at hlist
            exact hlist
          | out =>
            rw [hrE, hrV] at hlist
            exact hlist

/-- Bisimulation of the top-level loops. -/
theorem topoLoopE_bisim (steps : List WStep)
    (hu : (steps.map (fun s => s.name)).Nodup)
    (hc : ∀ s ∈ steps, ∀ d ∈ s.dependsList, d ∈ steps.map (fun s => s.name))
    (fuel : ℕ) :
    ∀ (ss : List WStep) (se : EState) (sv : VState), EVMatch steps se sv →
      (∀ s ∈ ss, s ∈ steps) →
      ERelV steps (topoLoopE steps fuel ss se) (topoLoopV steps fuel ss sv) := by
  intro ss
  induction ss with
  | nil =>
    intro se sv hm _
    simpa [topoLoopE, topoLoopV, ERelV] using hm
  | cons s ss ihss =>
    intro se sv hm hsub
    have hd := visitE_bisim steps hu hc fuel s.name se sv hm
      (Or.inl (List.mem_map_of_mem _ (hsub s (by simp))))
    cases hrE : visitE steps fuel s.name se with
    | ok se1 =>
      cases hrV : visitV steps fuel s.name sv with
      | ok sv1 =>
        rw [hrE, hrV] at hd
        have hnext := ihss se1 sv1 hd (fun x hx => hsub x (List.mem_cons_of_mem _ hx))
        simpa only [topoLoopE, topoLoopV, hrE, hrV] using hnext
      | cyc w => rw [hrE, hrV] at hd; exact False.elim hd
      | out => rw [hrE, hrV] at hd; exact False.elim hd
    | err e =>
      cases hrV : visitV steps fuel s.name sv with
      | ok sv1 => rw [hrE, hrV] at hd; cases e <;> exact False.elim hd
      | cyc w =>
        rw [hrE, hrV] at hd
        simpa only [topoLoopE, topoLoopV, hrE, hrV] using hd
      | out =>
        rw [hrE, hrV] at hd
        simpa only [topoLoopE, topoLoopV, hrE, hrV] using hd

/-- With unique names and resolvable dependencies the two sorts accept
exactly the same step lists: the execution sort succeeds iff the
validation sort reports no cycle, in success they produce the same name
sequence with each sorted step being its own name's lookup, and on cycle
they report the same witness. -/
theorem sorts_agree (steps : List WStep)
    (hu : (steps.map (fun s => s.name)).Nodup)
    (hc : ∀ s ∈ steps, ∀ d ∈ s.dependsList, d ∈ steps.map (fun s => s.name)) :
    ((topologicalSortV steps).hasCycle = false →
      ∃ sorted, topologicalSortE steps = .ok sorted
        ∧ sorted.map (fun s => s.name) = (topologicalSortV steps).order
        ∧ ∀ s ∈ sorted, stepMapGet steps s.name = some s)
    ∧ ((topologicalSortV steps).hasCycle = true →
      ∃ w, topologicalSortE steps = .error (.circular w)
        ∧ (topologicalSortV steps).cycleStep = some w) := by
  have hrel := topoLoopE_bisim steps hu hc (sortFuel steps) steps
    ⟨[], [], []⟩ ⟨[], [], []⟩ ⟨rfl, rfl, rfl, by simp⟩ (fun s hs => hs)
  have hloop := topoLoopV_master steps (sortFuel steps) steps ⟨[], [], []⟩
    (VInv.initial steps) rfl (fun s hs => name_mem_allNames hs)
  unfold topologicalSortE topologicalSortV
  cases hrE : topoLoopE steps (sortFuel steps) steps ⟨[], [], []⟩ with
  | ok se =>
    cases hrV : topoLoopV steps (sortFuel steps) steps ⟨[], [], []⟩ with
    | ok sv =>
      rw [hrE, hrV] at hrel
      obtain ⟨hord, -, -, hcoh⟩ := hrel
      exact ⟨fun _ => ⟨se.sorted, rfl, hord, hcoh⟩, by simp⟩
    | cyc w => rw [hrE, hrV] at hrel; exact False.elim hrel
    | out => rw [hrE, hrV] at hrel; exact False.elim hrel
  | err e =>
    cases hrV : topoLoopV steps (sortFuel steps) steps ⟨[], [], []⟩ with
    | ok sv =>
      rw [hrE, hrV] at hrel
      cases e <;> exact False.elim hrel
    | cyc w =>
      rw [hrE, hrV] at hrel
      cases e with
      | circular w' =>
        have hw : w' = w := hrel
        subst hw
        exact ⟨by simp, fun _ => ⟨w', rfl, rfl⟩⟩
      | notFound n => exact False.elim hrel
      | fuelOut => exact False.elim hrel
    | out => exact absurd hrV (hloop.1 (allNames_lt_sortFuel steps))

/-- A found step carries the looked-up name. -/
theorem stepMapGet_name {steps : List WStep} {n : String} {s : WStep}
    (h : stepMapGet steps n = some s) : s.name = n := by
  have := List.find?_some h
  simpa using this

/-- Dependency-loop preservation of the light invariant. -/
theorem visitAllE_inv (steps : List WStep) (fuel : ℕ)
    (IH : ∀ (name : String) (st : EState), EInv st →
      ∀ st', visitE steps fuel name st = .ok st' →
        EInv st' ∧ st'.visiting = st.visiting
        ∧ (∃ gr, st'.sorted = st.sorted ++ gr)) :
    ∀ (ds : List String) (st : EState), EInv st →
      ∀ st', visitAllWithE (visitE steps fuel) ds st = .ok st' →
        EInv st' ∧ st'.visiting = st.visiting
        ∧ (∃ gr, st'.sorted = st.sorted ++ gr) := by
  intro ds
  induction ds with
  | nil =>
    intro st hinv st' h
    simp only [visitAllWithE, ERes.ok.injEq] at h
    subst h
    exact ⟨hinv, rfl, ⟨[], by simp⟩⟩
  | cons d ds ihds =>
    intro st hinv st' h
    simp only [visitAllWithE] at h
    cases hrE : visitE steps fuel d st with
    | ok st1 =>
      rw [hrE] at h
      obtain ⟨hinv1, hvis1, ⟨gr1, hord1⟩⟩ := IH d st hinv st1 hrE
      obtain ⟨hinv', hvis', ⟨gr2, hord2⟩⟩ := ihds st1 hinv1 st' h
      exact ⟨hinv', by rw [hvis', hvis1],
        ⟨gr1 ++ gr2, by rw [hord2, hord1, List.append_assoc]⟩⟩
    | err e =>
      rw [hrE] at h
      cases h

/-- The execution-path DFS preserves the light invariant with no
assumptions on the step list. -/
theorem visitE_inv (steps : List WStep) :
    ∀ (fuel : ℕ) (name : String) (st : EState), EInv st →
      ∀ st', visitE steps fuel name st = .ok st' →
        EInv st' ∧ st'.visiting = st.visiting
        ∧ (∃ gr, st'.sorted = st.sorted ++ gr) := by
  intro fuel
  induction fuel with
  | zero =>
    intro name st _ st' h
    simp [visitE] at h
  | succ fuel ih =>
    intro name st hinv st' h
    by_cases hv : name ∈ st.visited
    · simp only [visitE, if_pos hv, ERes.ok.injEq] at h
      subst h
      exact ⟨hinv, rfl, ⟨[], by simp⟩⟩
    · by_cases hg : name ∈ st.visiting
      · simp [visitE, hv, hg] at h
      · simp only [visitE, if_neg hv, if_neg hg] at h
        cases hget : stepMapGet steps name with
        | none => simp [hget] at h
        | some s =>
          have hsn : s.name = name := stepMapGet_name hget
          cases hres : visitAllWithE (visitE steps fuel) s.dependsList
              { st with visiting := name :: st.visiting } with
          | ok st2 =>
            simp only [hget, hres, ERes.ok.injEq] at h
            subst h
            have hinv1 : EInv { st with visiting := name :: st.visiting } := by
              refine ⟨hinv.nodup, hinv.visited_iff, ?_⟩
              intro n hn
              simp only [List.mem_cons, not_or]
              refine ⟨?_, hinv.disj n hn⟩
              intro he
              subst he
              exact hv ((hinv.visited_iff n).mpr hn)
            obtain ⟨hinv2, hvis2, ⟨gr, hord2⟩⟩ :=
              visitAllE_inv steps fuel ih s.dependsList _ hinv1 st2 hres
            have hnameg : name ∈ st2.visiting := by rw [hvis2]; simp
            have hnotin : name ∉ st2.sorted.map (fun s => s.name) :=
              fun hmem => (hinv2.disj name hmem) hnameg
            refine ⟨⟨?_, ?_, ?_⟩, ?_, ?_⟩
            · simp only [List.map_append, List.map_cons, List.map_nil]
              simp only [List.nodup_append, List.nodup_cons]
              exact ⟨hinv2.nodup, by simp, by simpa [hsn] using hnotin⟩
            · intro n
              have hvi := hinv2.visited_iff n
              simp only [List.mem_cons, List.map_append, List.mem_append,
                List.map_cons, List.map_nil, List.mem_singleton, hsn]
              tauto
            · intro n hn
              rw [hvis2, List.erase_cons_head]
              simp only [List.map_append, List.mem_append, List.map_cons,
                List.map_nil, hsn] at hn
              rcases hn with hm | he
              · have := hinv2.disj n hm
                rw [hvis2] at this
                simp only [List.mem_cons, not_or] at this
                exact this.2
              · have he2 : n = name := by simpa using he
                exact he2 ▸ hg
            · rw [hvis2, List.erase_cons_head]
            · exact ⟨gr ++ [s], by rw [hord2]; simp [List.append_assoc]⟩
          | err e =>
            simp [hget, hres] at h

/-- Loop preservation of the light invariant. -/
theorem topoLoopE_inv (steps : List WStep) (fuel : ℕ) :
    ∀ (ss : List WStep) (st : EState), EInv st →
      ∀ st', topoLoopE steps fuel ss st = .ok st' → EInv st' := by
  intro ss
  induction ss with
  | nil =>
    intro st hinv st' h
    simp only [topoLoopE, ERes.ok.injEq] at h
    subst h
    exact hinv
  | cons s ss ihss =>
    intro st hinv st' h
    simp only [topoLoopE] at h
    cases hrE : visitE steps fuel s.name st with
    | ok st1 =>
      rw [hrE] at h
      obtain ⟨hinv1, -, -⟩ := visitE_inv steps fuel s.name st hinv st1 hrE
      exact ihss st1 hinv1 st' h
    | err e =>
      rw [hrE] at h
      cases h

/-- Whatever the input, a successful execution sort lists each step name at
most once. -/
theorem sortE_nodup {steps sorted : List WStep}
    (h : topologicalSortE steps = .ok sorted) :
    (sorted.map (fun s => s.name)).Nodup := by
  unfold topologicalSortE at h
  cases hres : topoLoopE steps (sortFuel steps) steps ⟨[], [], []⟩ with
  | ok st' =>
    rw [hres] at h
    simp only [Except.ok.injEq] at h
    subst h
    exact (topoLoopE_inv steps (sortFuel steps) steps ⟨[], [], []⟩
      ⟨by simp, by simp, by simp⟩ st' hres).nodup
  | err e =>
    rw [hres] at h
    cases h

/-! ## Claims C2, C3 and C9 -/

theorem mem_allNames_iff {steps : List WStep} {n : String} :
    n ∈ allNames steps ↔
      n ∈ steps.map (fun s => s.name) ∨ ∃ s ∈ steps, n ∈ s.dependsList := by
  unfold allNames
  rw [List.mem_dedup, List.mem_append, List.mem_flatMap]

/-- Counterexample to claim C2 as stated: on `c2cex` the execution sort
returns the order C, A, B, which does not keep the unconstrained pair
(B, C) in declaration order. -/
theorem c2_counterexample :
    topoNamesE c2cex = some ["C", "A", "B"]
    ∧ ¬ TieBreakRespected c2cex ["C", "A", "B"] :=
  ⟨by decide, by decide⟩

/-- Claim C2 as amended: for unique names, resolvable dependencies and no
cycles, the execution sort succeeds with a permutation of the steps in
which every dependency is ordered strictly before each step that depends
on it, and repeated calls return the identical order; the tie-break among
unconstrained steps is the DFS completion order, not declaration order
(see the counterexample). -/
theorem c2_amended (steps : List WStep)
    (hu : (steps.map (fun s => s.name)).Nodup)
    (hc : ∀ s ∈ steps, ∀ d ∈ s.dependsList, d ∈ steps.map (fun s => s.name))
    (hnc : ¬ HasCycle steps) :
    ∃ sorted, topologicalSortE steps = .ok sorted
      ∧ sorted.Perm steps
      ∧ (∀ s ∈ steps, ∀ d ∈ s.dependsList,
          d ∈ sorted.map (fun t => t.name)
          ∧ (sorted.map (fun t => t.name)).indexOf d
              < (sorted.map (fun t => t.name)).indexOf s.name)
      ∧ topologicalSortE steps = topologicalSortE steps := by
  have hcy : (topologicalSortV steps).hasCycle = false := by
    cases hcyc : (topologicalSortV steps).hasCycle
    · rfl
    · exact absurd (hasCycle_sound hcyc) hnc
  obtain ⟨sorted, hok, hord, hcoh⟩ := (sorts_agree steps hu hc).1 hcy
  obtain ⟨hnd, hOK, hall, hsub, -⟩ := topologicalSortV_success steps hcy
  refine ⟨sorted, hok, ?_, ?_, rfl⟩
  · have hpermN : ((topologicalSortV steps).order).Perm (steps.map (fun s => s.name)) := by
      refine List.perm_of_nodup_nodup_toFinset_eq hnd hu ?_
      ext n
      simp only [List.mem_toFinset]
      constructor
      · intro hn
        rcases mem_allNames_iff.mp (hsub n hn) with h | ⟨s, hs, hd⟩
        · exact h
        · exact hc s hs n hd
      · intro hn
        obtain ⟨s, hs, hsn⟩ := List.mem_map.mp hn
        exact hsn ▸ hall s hs
    have hpermN2 : (sorted.map (fun s => s.name)).Perm (steps.map (fun s => s.name)) := by
      rw [hord]; exact hpermN
    have hf1 : (sorted.map (fun s => s.name)).map
        (fun n => (stepMapGet steps n).getD (mkStep n none none none)) = sorted := by
      rw [List.map_map]
      exact (List.map_congr_left fun s hsx => by
        simp [Function.comp, hcoh s hsx]).trans (List.map_id sorted)
    have hf2 : ((steps.map (fun s => s.name)).map
        (fun n => (stepMapGet steps n).getD (mkStep n none none none))) = steps := by
      rw [List.map_map]
      exact (List.map_congr_left fun s hsx => by
        simp [Function.comp, stepMapGet_self hu hsx]).trans (List.map_id steps)
    have hperm3 := hpermN2.map
      (fun n => (stepMapGet steps n).getD (mkStep n none none none))
    rw [hf1, hf2] at hperm3
    exact hperm3
  · intro s hs d hd
    have hdep : d ∈ depsOf steps s.name := by
      rw [depsOf_self hu hs]; exact hd
    obtain ⟨hdm, hlt⟩ := hOK s.name (hall s hs) d hdep
    rw [hord]
    exact ⟨hdm, hlt⟩

/-- Witness for C2 at the concrete acyclic three-step list. -/
theorem c2_witness :
    ∃ sorted, topologicalSortE c2cex = .ok sorted
      ∧ sorted.Perm c2cex
      ∧ (∀ s ∈ c2cex, ∀ d ∈ s.dependsList,
          d ∈ sorted.map (fun t => t.name)
          ∧ (sorted.map (fun t => t.name)).indexOf d
              < (sorted.map (fun t => t.name)).indexOf s.name)
      ∧ topologicalSortE c2cex = topologicalSortE c2cex :=
  c2_amended c2cex (by decide) (by decide)
    (fun hcy => absurd (hasCycle_complete hcy) (by decide))

/-- Counterexample to claim C3 as stated: on `c3cex` the validation path's
sort reports no cycle (it treats the unknown dependency as a leaf and even
orders it), while the execution path's sort throws step-not-found — the
two paths do not accept the same step lists. -/
theorem c3_counterexample :
    (topologicalSortV c3cex).hasCycle = false
    ∧ (topologicalSortV c3cex).order = ["B", "A"]
    ∧ topoErrE c3cex = some (.notFound "B") :=
  ⟨by decide, by decide, by decide⟩

/-- Claim C3 as amended: restricted to step lists with unique names whose
dependencies all resolve, the two sorts agree — the execution sort
succeeds exactly when the validation sort reports no cycle, and on
success they produce the same sequence of step names. -/
theorem c3_amended (steps : List WStep)
    (hu : (steps.map (fun s => s.name)).Nodup)
    (hc : ∀ s ∈ steps, ∀ d ∈ s.dependsList, d ∈ steps.map (fun s => s.name)) :
    ((∃ sorted, topologicalSortE steps = .ok sorted) ↔
      (topologicalSortV steps).hasCycle = false)
    ∧ (∀ sorted, topologicalSortE steps = .ok sorted →
        sorted.map (fun s => s.name) = (topologicalSortV steps).order) := by
  have hag := sorts_agree steps hu hc
  have hdir : ∀ sorted, topologicalSortE steps = .ok sorted →
      (topologicalSortV steps).hasCycle = false := by
    intro sorted hok
    cases hcy : (topologicalSortV steps).hasCycle
    · rfl
    · obtain ⟨w, herr, -⟩ := hag.2 hcy
      rw [hok] at herr
      cases herr
  constructor
  · constructor
    · rintro ⟨sorted, hok⟩
      exact hdir sorted hok
    · intro hcy
      obtain ⟨sorted, hok, -, -⟩ := hag.1 hcy
      exact ⟨sorted, hok⟩
  · intro sorted hok
    obtain ⟨sorted', hok', hord', -⟩ := hag.1 (hdir sorted hok)
    rw [hok] at hok'
    injection hok' with h
    rw [← h] at hord'
    exact hord'

/-- Witness for C3 at the concrete two-step list. -/
theorem c3_witness :
    ((∃ sorted, topologicalSortE c3wit = .ok sorted) ↔
      (topologicalSortV c3wit).hasCycle = false)
    ∧ (∀ sorted, topologicalSortE c3wit = .ok sorted →
        sorted.map (fun s => s.name) = (topologicalSortV c3wit).order) :=
  c3_amended c3wit (by decide) (by decide)

/-- Claim C9: a step list containing a dependency cycle makes graph
resolution report a cycle with exactly one witness name and no partial
order — the execution order and parallel groups are empty — and the
validation operation classifies the cycle as an error (field `depends`),
reporting the step list invalid. -/
theorem c9_cycle_rejected (steps : List WStep) (hc : HasCycle steps) :
    (topologicalSortV steps).hasCycle = true
    ∧ (∃ w, (topologicalSortV steps).cycleStep = some w)
    ∧ (topologicalSortV steps).order = []
    ∧ (relayWorkflowValidate steps).valid = false
    ∧ (relayWorkflowValidate steps).struct.executionOrder = []
    ∧ (relayWorkflowValidate steps).struct.parallelGroups = []
    ∧ (∃ w, (topologicalSortV steps).cycleStep = some w
        ∧ (⟨w, "depends", .circular w⟩ : ValidationError)
            ∈ (relayWorkflowValidate steps).errors) := by
  have hcy := hasCycle_complete hc
  obtain ⟨w, hw⟩ := cycleStep_isSome hcy
  refine ⟨hcy, ⟨w, hw⟩, cycle_order_empty hcy, ?_, ?_, ?_, ⟨w, hw, ?_⟩⟩
  · simp only [relayWorkflowValidate, hcy, if_pos]
    simp
  · simp [relayWorkflowValidate, hcy]
  · simp [relayWorkflowValidate, hcy]
  · simp only [relayWorkflowValidate, hcy, if_pos, hw]
    refine List.mem_append_right _ ?_
    simp [hw]

/-- Witness for C9 at the concrete two-step cycle. -/
theorem c9_witness :
    (topologicalSortV c9wit).hasCycle = true
    ∧ (∃ w, (topologicalSortV c9wit).cycleStep = some w)
    ∧ (topologicalSortV c9wit).order = []
    ∧ (relayWorkflowValidate c9wit).valid = false
    ∧ (relayWorkflowValidate c9wit).struct.executionOrder = []
    ∧ (relayWorkflowValidate c9wit).struct.parallelGroups = []
    ∧ (∃ w, (topologicalSortV c9wit).cycleStep = some w
        ∧ (⟨w, "depends", .circular w⟩ : ValidationError)
            ∈ (relayWorkflowValidate c9wit).errors) :=
  c9_cycle_rejected c9wit
    ⟨"A", @DepPath.cons c9wit "A" "B" "A" (by decide)
      (@DepPath.single c9wit "B" "A" (by decide))⟩

/-- Witness for C10's bounded-retention conjunct at a concrete store. -/
theorem c10_witness :
    ([] : List RunRecord).length ≤ MAX_RUNS ∧ (addRun demoRun []).length ≤ MAX_RUNS :=
  ⟨by decide, (c10_recent_runs_cap 7 []).2.2.2.1 demoRun [] (by decide)⟩

theorem c1_est_hi : estimateProviderCost "openai:gpt-4o-mini" "hi" none 500
    = 30015 / 100000000 := by
  have hlk : List.lookup "openai:gpt-4o-mini" PRICING
      = some (0.00015, 0.0006) := rfl
  have hlen : ("hi" : String).length = 2 := rfl
  norm_num [estimateProviderCost, estimateTokens, getModelPricing, hlk, hlen]

theorem c1_est_yo : estimateProviderCost "openai:gpt-4o-mini" "yo" none 500
    = 30015 / 100000000 := by
  have hlk : List.lookup "openai:gpt-4o-mini" PRICING
      = some (0.00015, 0.0006) := rfl
  have hlen : ("yo" : String).length = 2 := rfl
  norm_num [estimateProviderCost, estimateTokens, getModelPricing, hlk, hlen]

theorem c1_wf_cost : estimateWorkflowCost [c1s1, c1s2] = 6003 / 10000000 := by
  have ht1 : truthy c1s1.model = true := rfl
  have ht2 : truthy c1s1.prompt = true := rfl
  have ht4 : truthy c1s2.model = true := rfl
  have ht5 : truthy c1s2.prompt = true := rfl
  have hm1 : c1s1.model.getD "" = "openai:gpt-4o-mini" := rfl
  have hp1 : c1s1.prompt.getD "" = "hi" := rfl
  have hs1 : c1s1.systemPrompt = none := rfl
  have hm2 : c1s2.model.getD "" = "openai:gpt-4o-mini" := rfl
  have hp2 : c1s2.prompt.getD "" = "yo" := rfl
  have hs2 : c1s2.systemPrompt = none := rfl
  simp only [estimateWorkflowCost, List.foldl, ht1, ht2, ht4, ht5, hm1, hp1,
    hs1, hm2, hp2, hs2, Bool.and_self, if_true, c1_est_hi, c1_est_yo]
  norm_num

theorem c1_agg_check : checkBudget c1cfg c1now (6003 / 10000000) c1st
    = (⟨true, none, 0, 0⟩, c1st) := by
  norm_num [checkBudget, maybeResetCounters, shouldResetHourly, hourInMs,
    c1cfg, c1now, c1st]

theorem c1_chk1 : checkBudget c1cfg c1now (30015 / 100000000) c1st
    = (⟨true, none, 0, 0⟩, c1st) := by
  norm_num [checkBudget, maybeResetCounters, shouldResetHourly, hourInMs,
    c1cfg, c1now, c1st]

theorem c1_actual : calculateActualCost "openai:gpt-4o-mini" 1 2000000
    = 24000003 / 20000000 := by
  have hlk : List.lookup "openai:gpt-4o-mini" PRICING
      = some (0.00015, 0.0006) := rfl
  norm_num [calculateActualCost, getModelPricing, hlk]

theorem c1_rc : recordCost c1now (24000003 / 20000000) c1st = c1stMid := by
  norm_num [recordCost, maybeResetCounters, shouldResetHourly, hourInMs,
    c1now, c1st, c1stMid]

theorem c1_run1 : relayRunM c1cfg c1oracle c1now
    ⟨"openai:gpt-4o-mini", "hi", none, none⟩ c1st
    = ({ success := true, output := .str "big", model := "openai:gpt-4o-mini",
         usage := ⟨1, 2000000, 2000001, 24000003 / 20000000⟩,
         error := none }, c1stMid) := by
  have hpm : parseModel "openai:gpt-4o-mini" = .ok ("openai", "gpt-4o-mini") := rfl
  have hc1 : c1cfg.configuredProviders.contains "openai" = true := rfl
  have hc2 : (["openai", "anthropic", "google", "xai"] : List String).contains "openai"
      = true := rfl
  have horc : c1oracle "openai" "gpt-4o-mini" "hi" none none
      = .ok ⟨.str "big", 1, 2000000⟩ := rfl
  simp only [relayRunM, hpm, hc1, hc2, horc, c1_est_hi, c1_chk1, c1_actual, c1_rc,
    Bool.not_true, Bool.false_eq_true, if_false]

theorem c1_chk2 : checkBudget c1cfg c1now (30015 / 100000000) c1stMid
    = (⟨false, some .dailyBudget, 24000003 / 20000000, 1⟩, c1stMid) := by
  norm_num [checkBudget, maybeResetCounters, shouldResetHourly, hourInMs,
    c1cfg, c1now, c1stMid]

theorem c1_run2 : relayRunM c1cfg c1oracle c1now
    ⟨"openai:gpt-4o-mini", "yo", none, none⟩ c1stMid
    = (relayRunFail "openai:gpt-4o-mini" (.budgetDenied (some .dailyBudget)),
       c1stMid) := by
  have hpm : parseModel "openai:gpt-4o-mini" = .ok ("openai", "gpt-4o-mini") := rfl
  have hc1 : c1cfg.configuredProviders.contains "openai" = true := rfl
  simp only [relayRunM, hpm, hc1, c1_est_yo, c1_chk2,
    Bool.not_true, Bool.false_eq_true, if_false, Bool.not_false, if_true]

theorem c1_exec : execSteps c1cfg c1oracle c1now (.obj []) [c1s1, c1s2] [] [] 0 0 c1st
    = .aborted [("s1", c1res1), ("s2", c1res2)] "s2"
        (.budgetDenied (some .dailyBudget)) 2000001 (24000003 / 20000000) c1stMid := by
  have ht1 : truthy c1s1.model = true := rfl
  have ht2 : truthy c1s1.prompt = true := rfl
  have ht3 : truthy c1s1.systemPrompt = false := rfl
  have ht4 : truthy c1s2.model = true := rfl
  have ht5 : truthy c1s2.prompt = true := rfl
  have ht6 : truthy c1s2.systemPrompt = false := rfl
  have hm1 : c1s1.model.getD "" = "openai:gpt-4o-mini" := rfl
  have hp1 : c1s1.prompt.getD "" = "hi" := rfl
  have hm2 : c1s2.model.getD "" = "openai:gpt-4o-mini" := rfl
  have hp2 : c1s2.prompt.getD "" = "yo" := rfl
  have hsc1 : c1s1.schema = none := rfl
  have hsc2 : c1s2.schema = none := rfl
  have hn1 : c1s1.name = "s1" := rfl
  have hn2 : c1s2.name = "s2" := rfl
  have hip1 : interpolate "hi" (JsValue.obj [("input", .obj []), ("steps", .obj [])])
      = "hi" := rfl
  have hip2 : interpolate "yo" (JsValue.obj [("input", .obj []),
      ("steps", .obj [("s1", .obj [("output", .str "big")])])]) = "yo" := rfl
  simp [execSteps, ht1, ht2, ht3, ht4, ht5, ht6, hm1, hp1, hm2, hp2,
    hsc1, hsc2, hn1, hn2, hip1, hip2, c1_run1, c1_run2, setEntry, List.lookup,
    c1res1, c1res2, relayRunFail]

/-- Full evaluation of the C1 scenario: the aggregate-admitted workflow
aborts at its second step because `relayRun` re-checks the budget per
call. -/
theorem c1_eval : relayWorkflowRunM c1cfg c1oracle c1now c1wf c1st
    = ({ success := false
         steps := [("s1", c1res1), ("s2", c1res2)]
         finalOutput := some .null
         totalTokens := 2000001
         totalCostUsd := 24000003 / 20000000
         error := some (.stepFailed "s2" (.budgetDenied (some .dailyBudget))) },
       c1stMid) := by
  have hsort : topologicalSortE c1wf.steps = .ok [c1s1, c1s2] := rfl
  have hfilter : ([c1s1, c1s2].filter (fun s => truthy s.model && truthy s.prompt))
      = [c1s1, c1s2] := rfl
  have hpr1 : stepProvider c1s1 = "openai" := rfl
  have hpr2 : stepProvider c1s2 = "openai" := rfl
  have hcp : c1cfg.configuredProviders = ["openai"] := rfl
  have hin : c1wf.input = JsValue.obj [] := rfl
  simp [relayWorkflowRunM, hsort, hfilter, hpr1, hpr2, hcp, hin, c1_wf_cost,
    c1_agg_check, c1_exec, workflowFail]

theorem c1_chk3 : checkBudget c1cfg c1now (6003 / 10000000) c1stMid
    = (⟨false, some .dailyBudget, 24000003 / 20000000, 1⟩, c1stMid) := by
  norm_num [checkBudget, maybeResetCounters, shouldResetHourly, hourInMs,
    c1cfg, c1now, c1stMid]

/-- Counterexample to claim C1 as stated: the `c1wf` workflow is admitted
by the single aggregate budget check, its first step succeeds and pushes
the daily spend over the ceiling, and then — contrary to the claim that
per-step costs are not re-checked and the workflow is allowed to finish —
the second step is denied by `relayRun`'s per-call budget check, the
workflow reports failure, and the next submission is denied as well. -/
theorem c1_counterexample :
    (checkBudget c1cfg c1now (estimateWorkflowCost
      (c1wf.steps.filter (fun s => truthy s.model && truthy s.prompt))) c1st).1.allowed
      = true ∧
    (List.lookup "s1" (relayWorkflowRunM c1cfg c1oracle c1now c1wf c1st).1.steps).map
      (fun r => r.success) = some true ∧
    (relayWorkflowRunM c1cfg c1oracle c1now c1wf c1st).2.dailySpendUsd
      > c1cfg.maxDailyCostUsd ∧
    (List.lookup "s2" (relayWorkflowRunM c1cfg c1oracle c1now c1wf c1st).1.steps).map
      (fun r => r.success) = some false ∧
    (relayWorkflowRunM c1cfg c1oracle c1now c1wf c1st).1.error
      = some (.stepFailed "s2" (.budgetDenied (some .dailyBudget))) ∧
    (relayWorkflowRunM c1cfg c1oracle c1now c1wf c1st).1.success = false ∧
    (checkBudget c1cfg c1now (estimateWorkflowCost
      (c1wf.steps.filter (fun s => truthy s.model && truthy s.prompt)))
      (relayWorkflowRunM c1cfg c1oracle c1now c1wf c1st).2).1.allowed = false := by
  have hfilt : (c1wf.steps.filter (fun s => truthy s.model && truthy s.prompt))
      = [c1s1, c1s2] := rfl
  rw [c1_eval, hfilt, c1_wf_cost, c1_agg_check, c1_chk3]
  refine ⟨rfl, ?_, ?_, ?_, rfl, rfl, rfl⟩
  · simp [List.lookup, c1res1]
  · norm_num [c1stMid, c1cfg]
  · simp [List.lookup, c1res2]

/-- Claim C1 as amended: every AI step of a workflow is individually
re-checked against the budget by `relayRun`'s per-call `checkBudget`; a
call whose parsed model has a configured provider but whose budget check
is denied fails immediately with the check's denial reason, without
reaching the provider. In particular a mid-run overage denies the next
AI step, so the workflow is not allowed to finish (see the
counterexample). -/
theorem c1_amended (cfg : McpServerConfig) (oracle : Oracle) (now : Instant)
    (input : RelayRunInputM) (st : BudgetState) (provider modelId : String)
    (hpm : parseModel input.model = .ok (provider, modelId))
    (hconf : cfg.configuredProviders.contains provider = true)
    (hden : (checkBudget cfg now
        (estimateProviderCost input.model input.prompt input.systemPrompt 500)
        st).1.allowed = false) :
    relayRunM cfg oracle now input st
      = (relayRunFail input.model (.budgetDenied
          (checkBudget cfg now
            (estimateProviderCost input.model input.prompt input.systemPrompt 500)
            st).1.reason),
         (checkBudget cfg now
           (estimateProviderCost input.model input.prompt input.systemPrompt 500)
           st).2) := by
  simp only [relayRunM, hpm, hconf, hden, Bool.not_true, Bool.not_false,
    Bool.false_eq_true, if_false, eq_self_iff_true, if_true]

/-- Witness for the amended C1 at the scenario's second step: after the
first step's overage the per-call check denies, and `relayRun` fails with
that denial. -/
theorem c1_witness :
    parseModel "openai:gpt-4o-mini" = .ok ("openai", "gpt-4o-mini") ∧
    c1cfg.configuredProviders.contains "openai" = true ∧
    (checkBudget c1cfg c1now
        (estimateProviderCost "openai:gpt-4o-mini" "yo" none 500)
        c1stMid).1.allowed = false ∧
    relayRunM c1cfg c1oracle c1now ⟨"openai:gpt-4o-mini", "yo", none, none⟩ c1stMid
      = (relayRunFail "openai:gpt-4o-mini" (.budgetDenied
          (checkBudget c1cfg c1now
            (estimateProviderCost "openai:gpt-4o-mini" "yo" none 500)
            c1stMid).1.reason),
         (checkBudget c1cfg c1now
           (estimateProviderCost "openai:gpt-4o-mini" "yo" none 500)
           c1stMid).2) := by
  have hden : (checkBudget c1cfg c1now
      (estimateProviderCost "openai:gpt-4o-mini" "yo" none 500)
      c1stMid).1.allowed = false := by
    rw [c1_est_yo, c1_chk2]
  exact ⟨rfl, rfl, hden,
    c1_amended c1cfg c1oracle c1now ⟨"openai:gpt-4o-mini", "yo", none, none⟩
      c1stMid "openai" "gpt-4o-mini" rfl rfl hden⟩

/-! ## Claim C8: abort on the first failing step -/

theorem lookup_append_none {α : Type} {k : String} {l l' : List (String × α)}
    (h : List.lookup k l = none) : List.lookup k (l ++ l') = List.lookup k l' := by
  induction l with
  | nil => rfl
  | cons p t ih =>
    obtain ⟨a, b⟩ := p
    cases hpk : (k == a) with
    | true => simp [List.lookup, hpk] at h
    | false =>
      simp only [List.lookup, hpk] at h
      simpa [List.lookup, hpk] using ih h

theorem lookup_append_some {α : Type} {k : String} {v : α} {l l' : List (String × α)}
    (h : List.lookup k l = some v) : List.lookup k (l ++ l') = some v := by
  induction l with
  | nil => simp [List.lookup] at h
  | cons p t ih =>
    obtain ⟨a, b⟩ := p
    cases hpk : (k == a) with
    | true => simp_all [List.lookup, hpk]
    | false =>
      simp only [List.lookup, hpk] at h ⊢
      exact ih h

theorem setEntry_of_not_mem {α : Type} {l : List (String × α)} {k : String} (v : α)
    (h : List.lookup k l = none) : setEntry l k v = l ++ [(k, v)] := by
  simp [setEntry, h]

theorem lookup_setEntry_self {α : Type} {l : List (String × α)} {k : String} (v : α)
    (h : List.lookup k l = none) : List.lookup k (setEntry l k v) = some v := by
  rw [setEntry_of_not_mem v h, lookup_append_none h]
  simp [List.lookup]

theorem lookup_setEntry_other {α : Type} {l : List (String × α)} {k k' : String} (v : α)
    (h : List.lookup k l = none) (hne : k' ≠ k) :
    List.lookup k' (setEntry l k v) = List.lookup k' l := by
  rw [setEntry_of_not_mem v h]
  cases hl : List.lookup k' l with
  | some w => exact lookup_append_some hl
  | none =>
    rw [lookup_append_none hl]
    have hbeq : (k' == k) = false := by simp [hne]
    simp [List.lookup, hbeq]

/-- The step loop's abort anatomy: under unique step names and a result
list disjoint from them, an aborted run splits the step list into the
successful prefix (all present in the report with success), the failing
step (present, marked failed with its error), and the never-run suffix
(absent from the report); earlier report entries are preserved. -/
theorem execSteps_abort_split (cfg : McpServerConfig) (oracle : Oracle) (now : Instant)
    (input : JsValue) :
    ∀ (steps : List WStep) (ctxSteps : List (String × JsValue))
      (results : List (String × WorkflowStepResultM)) (tok : ℕ) (cost : ℚ)
      (st : BudgetState)
      {results' : List (String × WorkflowStepResultM)} {fname : String}
      {e : RelayRunFailure} {tok' : ℕ} {cost' : ℚ} {st' : BudgetState}
      (hnd : (steps.map (fun s => s.name)).Nodup)
      (hdisj : ∀ s ∈ steps, List.lookup s.name results = none)
      (h : execSteps cfg oracle now input steps ctxSteps results tok cost st
          = .aborted results' fname e tok' cost' st'),
      ∃ pre f post,
        steps = pre ++ f :: post ∧ f.name = fname ∧
        List.lookup fname results' = some ⟨false, .null, none, some e⟩ ∧
        (∀ s ∈ post, List.lookup s.name results' = none) ∧
        (∀ s ∈ pre, ∃ r, List.lookup s.name results' = some r ∧ r.success = true) ∧
        (∀ k, List.lookup k results ≠ none →
          List.lookup k results' = List.lookup k results) := by
  intro steps
  induction steps with
  | nil =>
    intro ctxSteps results tok cost st results' fname e tok' cost' st' _ _ h
    exact ExecOut.noConfusion h
  | cons step rest ih =>
    intro ctxSteps results tok cost st results' fname e tok' cost' st' hnd hdisj h
    have hndr : (rest.map (fun s => s.name)).Nodup := hnd.of_cons
    have hstepnone : List.lookup step.name results = none :=
      hdisj step (List.mem_cons_self step rest)
    have hne : ∀ s ∈ rest, s.name ≠ step.name := by
      intro s hs hEq
      have hnm : step.name ∉ rest.map (fun s => s.name) :=
        (List.nodup_cons.mp (by simpa using hnd)).1
      exact hnm (hEq ▸ List.mem_map_of_mem (fun s => s.name) hs)
    have main : ∀ (res : WorkflowStepResultM), res.success = true →
        ∀ (ctx2 : List (String × JsValue)) (tok2 : ℕ) (cost2 : ℚ) (st2 : BudgetState),
          execSteps cfg oracle now input rest ctx2 (setEntry results step.name res)
              tok2 cost2 st2 = .aborted results' fname e tok' cost' st' →
          ∃ pre f post,
            step :: rest = pre ++ f :: post ∧ f.name = fname ∧
            List.lookup fname results' = some ⟨false, .null, none, some e⟩ ∧
            (∀ s ∈ post, List.lookup s.name results' = none) ∧
            (∀ s ∈ pre, ∃ r, List.lookup s.name results' = some r ∧ r.success = true) ∧
            (∀ k, List.lookup k results ≠ none →
              List.lookup k results' = List.lookup k results) := by
      intro res hres ctx2 tok2 cost2 st2 hrun
      have hdisj2 : ∀ s ∈ rest,
          List.lookup s.name (setEntry results step.name res) = none := by
        intro s hs
        rw [lookup_setEntry_other res hstepnone (hne s hs)]
        exact hdisj s (List.mem_cons_of_mem step hs)
      obtain ⟨pre, f, post, hsplit, hf, hlf, hpost, hpre, hpres⟩ :=
        ih ctx2 (setEntry results step.name res) tok2 cost2 st2 hndr hdisj2 hrun
      have hself : List.lookup step.name (setEntry results step.name res) = some res :=
        lookup_setEntry_self res hstepnone
      refine ⟨step :: pre, f, post, by rw [List.cons_append, hsplit], hf, hlf,
        hpost, ?_, ?_⟩
      · intro s hs
        rcases List.mem_cons.mp hs with hEq | hMem
        · subst hEq
          refine ⟨res, ?_, hres⟩
          rw [hpres s.name (by rw [hself]; exact Option.some_ne_none res), hself]
        · exact hpre s hMem
      · intro k hk
        have hkne : k ≠ step.name := by
          intro hEq
          rw [hEq] at hk
          exact hk hstepnone
        have h2 : List.lookup k (setEntry results step.name res)
            = List.lookup k results :=
          lookup_setEntry_other res hstepnone hkne
        rw [hpres k (by rw [h2]; exact hk), h2]
    have abortCase : ∀ (err : RelayRunFailure) (tokA : ℕ) (costA : ℚ)
        (stA : BudgetState),
        ExecOut.aborted (setEntry results step.name ⟨false, .null, none, some err⟩)
            step.name err tokA costA stA
          = ExecOut.aborted results' fname e tok' cost' st' →
        ∃ pre f post,
          step :: rest = pre ++ f :: post ∧ f.name = fname ∧
          List.lookup fname results' = some ⟨false, .null, none, some e⟩ ∧
          (∀ s ∈ post, List.lookup s.name results' = none) ∧
          (∀ s ∈ pre, ∃ r, List.lookup s.name results' = some r ∧ r.success = true) ∧
          (∀ k, List.lookup k results ≠ none →
            List.lookup k results' = List.lookup k results) := by
      intro err tokA costA stA hab
      rw [ExecOut.aborted.injEq] at hab
      obtain ⟨h1, h2, h3, h4, h5, h6⟩ := hab
      refine ⟨[], step, rest, by simp, h2, ?_, ?_, by simp, ?_⟩
      · rw [← h1, ← h2, ← h3]
        exact lookup_setEntry_self _ hstepnone
      · intro s hs
        rw [← h1, lookup_setEntry_other _ hstepnone (hne s hs)]
        exact hdisj s (List.mem_cons_of_mem step hs)
      · intro k hk
        rw [← h1, lookup_setEntry_other _ hstepnone ?_]
        intro hEq
        rw [hEq] at hk
        exact hk hstepnone
    simp only [execSteps] at h
    cases hsys : truthy step.systemPrompt <;>
      simp only [hsys, Bool.false_eq_true, eq_self_iff_true, if_true, if_false] at h <;>
      split at h <;> split at h <;>
      first
        | exact main _ rfl _ _ _ _ h
        | exact abortCase _ _ _ _ h

/-- Claim C8: for every workflow execution in which the step loop aborts
at a failing step, the workflow response reports failure carrying that
step's name and error and exactly the loop's partial report, in which
the failing step is marked failed with its error, every already-completed
step of the resolved order keeps its successful result, and every step
after the failing one (which never ran) is absent. -/
theorem c8_abort_on_failure (cfg : McpServerConfig) (oracle : Oracle) (now : Instant)
    (wf : WorkflowInputM) (st : BudgetState)
    (sorted : List WStep) (results : List (String × WorkflowStepResultM))
    (fname : String) (e : RelayRunFailure) (tok : ℕ) (cost : ℚ) (st2 : BudgetState)
    (hsort : topologicalSortE wf.steps = .ok sorted)
    (hadm : (checkBudget cfg now (estimateWorkflowCost
        (sorted.filter (fun s => truthy s.model && truthy s.prompt))) st).1.allowed
      = true)
    (hprov : ((sorted.filter (fun s => truthy s.model && truthy s.prompt)).find?
        (fun s => !(cfg.configuredProviders.contains (stepProvider s)))) = none)
    (habort : execSteps cfg oracle now wf.input sorted [] [] 0 0
        (checkBudget cfg now (estimateWorkflowCost
          (sorted.filter (fun s => truthy s.model && truthy s.prompt))) st).2
        = .aborted results fname e tok cost st2) :
    (relayWorkflowRunM cfg oracle now wf st).1
        = { success := false, steps := results, finalOutput := some .null,
            totalTokens := tok, totalCostUsd := cost,
            error := some (.stepFailed fname e) } ∧
    ∃ pre f post,
      sorted = pre ++ f :: post ∧ f.name = fname ∧
      List.lookup fname results = some ⟨false, .null, none, some e⟩ ∧
      (∀ s ∈ post, List.lookup s.name results = none) ∧
      (∀ s ∈ pre, ∃ r, List.lookup s.name results = some r ∧ r.success = true) := by
  constructor
  · simp only [relayWorkflowRunM, hsort, hadm, hprov, habort, Bool.not_true,
      Bool.false_eq_true, if_false, workflowFail]
  · obtain ⟨pre, f, post, hsplit, hf, hlf, hpost, hpre, _⟩ :=
      execSteps_abort_split cfg oracle now wf.input sorted [] [] 0 0 _
        (sortE_nodup hsort) (fun s _ => rfl) habort
    exact ⟨pre, f, post, hsplit, hf, hlf, hpost, hpre⟩

theorem c8_est_failme : estimateProviderCost "openai:gpt-4o-mini" "failme" none 500
    = 3003 / 10000000 := by
  have hlk : List.lookup "openai:gpt-4o-mini" PRICING
      = some (0.00015, 0.0006) := rfl
  have hlen : ("failme" : String).length = 6 := rfl
  norm_num [estimateProviderCost, estimateTokens, getModelPricing, hlk, hlen]

theorem c8_est_pb : estimateProviderCost "openai:gpt-4o-mini" "pb" none 500
    = 30015 / 100000000 := by
  have hlk : List.lookup "openai:gpt-4o-mini" PRICING
      = some (0.00015, 0.0006) := rfl
  have hlen : ("pb" : String).length = 2 := rfl
  norm_num [estimateProviderCost, estimateTokens, getModelPricing, hlk, hlen]

theorem c8_wf_cost : estimateWorkflowCost [c8sA, c8sB] = 60045 / 100000000 := by
  have ht1 : truthy c8sA.model = true := rfl
  have ht2 : truthy c8sA.prompt = true := rfl
  have ht4 : truthy c8sB.model = true := rfl
  have ht5 : truthy c8sB.prompt = true := rfl
  have hm1 : c8sA.model.getD "" = "openai:gpt-4o-mini" := rfl
  have hp1 : c8sA.prompt.getD "" = "failme" := rfl
  have hs1 : c8sA.systemPrompt = none := rfl
  have hm2 : c8sB.model.getD "" = "openai:gpt-4o-mini" := rfl
  have hp2 : c8sB.prompt.getD "" = "pb" := rfl
  have hs2 : c8sB.systemPrompt = none := rfl
  simp only [estimateWorkflowCost, List.foldl, ht1, ht2, ht4, ht5, hm1, hp1,
    hs1, hm2, hp2, hs2, Bool.and_self, if_true, c8_est_failme, c8_est_pb]
  norm_num

theorem c8_agg : checkBudget c8cfg c8now (60045 / 100000000) c8st
    = (⟨true, none, 0, 0⟩, c8st) := by
  norm_num [checkBudget, maybeResetCounters, shouldResetHourly, hourInMs,
    c8cfg, c8now, c8st]

theorem c8_chk1 : checkBudget c8cfg c8now (3003 / 10000000) c8st
    = (⟨true, none, 0, 0⟩, c8st) := by
  norm_num [checkBudget, maybeResetCounters, shouldResetHourly, hourInMs,
    c8cfg, c8now, c8st]

theorem c8_run1 : relayRunM c8cfg c8oracle c8now
    ⟨"openai:gpt-4o-mini", "failme", none, none⟩ c8st
    = (relayRunFail "openai:gpt-4o-mini" (.providerError "provider down"), c8st) := by
  have hpm : parseModel "openai:gpt-4o-mini" = .ok ("openai", "gpt-4o-mini") := rfl
  have hc1 : c8cfg.configuredProviders.contains "openai" = true := rfl
  have hc2 : (["openai", "anthropic", "google", "xai"] : List String).contains "openai"
      = true := rfl
  have horc : c8oracle "openai" "gpt-4o-mini" "failme" none none
      = .error "provider down" := rfl
  simp only [relayRunM, hpm, hc1, hc2, horc, c8_est_failme, c8_chk1,
    Bool.not_true, Bool.false_eq_true, if_false]

theorem c8_exec : execSteps c8cfg c8oracle c8now (.obj []) [c8sA, c8sB] [] [] 0 0 c8st
    = .aborted [("A", ⟨false, .null, none, some (.providerError "provider down")⟩)]
        "A" (.providerError "provider down") 0 0 c8st := by
  have ht1 : truthy c8sA.model = true := rfl
  have ht2 : truthy c8sA.prompt = true := rfl
  have ht3 : truthy c8sA.systemPrompt = false := rfl
  have hm1 : c8sA.model.getD "" = "openai:gpt-4o-mini" := rfl
  have hp1 : c8sA.prompt.getD "" = "failme" := rfl
  have hsc1 : c8sA.schema = none := rfl
  have hn1 : c8sA.name = "A" := rfl
  have hip1 : interpolate "failme" (JsValue.obj [("input", .obj []), ("steps", .obj [])])
      = "failme" := rfl
  simp [execSteps, ht1, ht2, ht3, hm1, hp1, hsc1, hn1, hip1, c8_run1,
    setEntry, List.lookup, relayRunFail]

/-- Witness for C8 on the spec's own scenario: declared `[B, A]` with `B`
dependent on `A`, resolved order `[A, B]`; `A`'s provider call throws, so
the run aborts with `A` marked failed, `B` absent from the report, and
the workflow reporting the failure. -/
theorem c8_witness :
    topologicalSortE c8wf.steps = .ok [c8sA, c8sB] ∧
    (checkBudget c8cfg c8now (estimateWorkflowCost
        ([c8sA, c8sB].filter (fun s => truthy s.model && truthy s.prompt)))
      c8st).1.allowed = true ∧
    (([c8sA, c8sB].filter (fun s => truthy s.model && truthy s.prompt)).find?
        (fun s => !(c8cfg.configuredProviders.contains (stepProvider s)))) = none ∧
    execSteps c8cfg c8oracle c8now c8wf.input [c8sA, c8sB] [] [] 0 0
        (checkBudget c8cfg c8now (estimateWorkflowCost
          ([c8sA, c8sB].filter (fun s => truthy s.model && truthy s.prompt))) c8st).2
      = .aborted [("A", ⟨false, .null, none, some (.providerError "provider down")⟩)]
          "A" (.providerError "provider down") 0 0 c8st ∧
    ((relayWorkflowRunM c8cfg c8oracle c8now c8wf c8st).1
        = { success := false,
            steps := [("A", ⟨false, .null, none,
              some (.providerError "provider down")⟩)],
            finalOutput := some .null, totalTokens := 0, totalCostUsd := 0,
            error := some (.stepFailed "A" (.providerError "provider down")) } ∧
      ∃ pre f post,
        ([c8sA, c8sB] : List WStep) = pre ++ f :: post ∧ f.name = "A" ∧
        List.lookup "A" [("A", (⟨false, .null, none,
            some (.providerError "provider down")⟩ : WorkflowStepResultM))]
          = some ⟨false, .null, none, some (.providerError "provider down")⟩ ∧
        (∀ s ∈ post, List.lookup s.name [("A", (⟨false, .null, none,
            some (.providerError "provider down")⟩ : WorkflowStepResultM))] = none) ∧
        (∀ s ∈ pre, ∃ r, List.lookup s.name [("A", (⟨false, .null, none,
            some (.providerError "provider down")⟩ : WorkflowStepResultM))]
          = some r ∧ r.success = true)) := by
  have hfilt : ([c8sA, c8sB].filter (fun s => truthy s.model && truthy s.prompt))
      = [c8sA, c8sB] := rfl
  have hadm : (checkBudget c8cfg c8now (estimateWorkflowCost
      ([c8sA, c8sB].filter (fun s => truthy s.model && truthy s.prompt)))
      c8st).1.allowed = true := by
    rw [hfilt, c8_wf_cost, c8_agg]
  have habort : execSteps c8cfg c8oracle c8now c8wf.input [c8sA, c8sB] [] [] 0 0
      (checkBudget c8cfg c8now (estimateWorkflowCost
        ([c8sA, c8sB].filter (fun s => truthy s.model && truthy s.prompt))) c8st).2
      = .aborted [("A", ⟨false, .null, none, some (.providerError "provider down")⟩)]
          "A" (.providerError "provider down") 0 0 c8st := by
    rw [hfilt, c8_wf_cost, c8_agg]
    exact c8_exec
  exact ⟨rfl, hadm, rfl, habort,
    c8_abort_on_failure c8cfg c8oracle c8now c8wf c8st [c8sA, c8sB] _ "A" _ 0 0 c8st
      rfl hadm rfl habort⟩

end RelayPlane
